import Mathlib

/-!
# Verification of the CAMEO chemical-identity resolution engine

Shallow embedding of the matching engine of this repository
(`backend/etl/match.py`, `backend/etl/semantics.py`, `backend/etl/clean.py`)
and proofs about the claims made by the specification.

Modelling conventions:
* Python strings are modelled as `List Char` (`Str`); all string helpers
  (`lower`, `strip`, `split`, regex tests) are implemented explicitly on
  ASCII characters, which covers the inputs exercised here.
* Python floats are modelled as exact rationals `ℚ`.  Arithmetic is done
  through the executable wrappers `qadd`/`qmul`/`qdiv` (definitionally
  kernel-reducible, unlike `Rat.add`/`Rat.mul` which are `@[irreducible]`),
  with bridge lemmas equating them to `+`/`*`/`/`.
* Python `round(x, n)` is modelled as round-half-to-even on the exact
  rational scaled by `10^n`.
* Python `dict`s are modelled as insertion-ordered association lists, and
  Python `set`s of candidate ids as insertion-ordered duplicate-free lists;
  this fixes one deterministic iteration order.
* The rapidfuzz `process.extract` call (an external library, explicitly
  declared swappable by the design notes) is a parameter `Extractor` of the
  engine: given the query, a corpus and a limit it returns scored matches.
-/

namespace Cameo

/-! ## Python-style string primitives over `List Char` -/

abbrev Str := List Char

/-- Build a `Str` from a string literal. -/
def str (s : String) : Str := s.toList

/-- ASCII decimal digit (`\d` / `str.isdigit` for the ASCII inputs used here). -/
def isDigitChar (c : Char) : Bool := '0' ≤ c && c ≤ '9'

/-- Python whitespace (`\s`, `str.strip`): space, tab, newline, CR, VT, FF. -/
def pyIsSpace (c : Char) : Bool :=
  c = ' ' || c = '\t' || c = '\n' || c = '\r' || c = '\x0b' || c = '\x0c'

/-- Python `\w` word character for ASCII input. -/
def isWordChar (c : Char) : Bool :=
  isDigitChar c || ('a' ≤ c && c ≤ 'z') || ('A' ≤ c && c ≤ 'Z') || c = '_'

/-- ASCII lower-casing of one character (Python `str.lower` on ASCII). -/
def lowerChar (c : Char) : Char :=
  if 'A' ≤ c && c ≤ 'Z' then Char.ofNat (c.toNat + 32) else c

/-- ASCII upper-casing of one character (Python `str.upper` on ASCII). -/
def upperChar (c : Char) : Char :=
  if 'a' ≤ c && c ≤ 'z' then Char.ofNat (c.toNat - 32) else c

def pyLower (l : Str) : Str := l.map lowerChar

def pyUpper (l : Str) : Str := l.map upperChar

/-- Python `str.strip()`: drop whitespace from both ends. -/
def pyStrip (l : Str) : Str :=
  ((l.dropWhile pyIsSpace).reverse.dropWhile pyIsSpace).reverse

/-- Python `str.strip(chars)`: drop the given characters from both ends. -/
def pyStripChars (cs : List Char) (l : Str) : Str :=
  ((l.dropWhile (cs.contains ·)).reverse.dropWhile (cs.contains ·)).reverse

/-- `str.replace(old, '')` for a single character. -/
def removeChar (c : Char) (l : Str) : Str := l.filter (· ≠ c)

/-- `re.sub(r'[\s\-]', '', s)`: drop whitespace and dashes. -/
def stripSpaceDash (l : Str) : Str := l.filter (fun c => !(pyIsSpace c || c = '-'))

/-- Python `str.isdigit()`: non-empty and all digits. -/
def pyIsDigitStr (l : Str) : Bool := !l.isEmpty && l.all isDigitChar

/-- Numeric value of a digit character. -/
def digitVal (c : Char) : Nat := c.toNat - '0'.toNat

/-- Value of a digit string (used for `int(...)` on digit strings). -/
def natOfDigits (l : Str) : Nat := l.foldl (fun a c => 10 * a + digitVal c) 0

/-- Python `int(s)` on a string: strip whitespace, optional sign, digits;
`none` models `ValueError`. -/
def pyInt (l : Str) : Option Int :=
  let t := pyStrip l
  match t with
  | '-' :: ds => if pyIsDigitStr ds then some (-(natOfDigits ds : Int)) else none
  | '+' :: ds => if pyIsDigitStr ds then some (natOfDigits ds : Int) else none
  | ds => if pyIsDigitStr ds then some (natOfDigits ds : Int) else none

/-- Python `str.split()` (split on whitespace runs, dropping empties). -/
def splitWsAux : Str → Str → List Str
  | [], acc => if acc.isEmpty then [] else [acc.reverse]
  | c :: t, acc =>
    if pyIsSpace c then
      if acc.isEmpty then splitWsAux t [] else acc.reverse :: splitWsAux t []
    else splitWsAux t (c :: acc)

def splitWs (l : Str) : List Str := splitWsAux l []

/-- Python `str.split(sep)` for a one-character separator (keeps empties). -/
def splitOnChAux (sep : Char) : Str → Str → List Str
  | [], acc => [acc.reverse]
  | c :: t, acc =>
    if c = sep then acc.reverse :: splitOnChAux sep t []
    else splitOnChAux sep t (c :: acc)

def splitOnCh (sep : Char) (l : Str) : List Str := splitOnChAux sep l []

/-- Does `l` start with `p`? -/
def startsWithL (l p : Str) : Bool :=
  match l, p with
  | _, [] => true
  | [], _ :: _ => false
  | c :: cs, d :: ds => c = d && startsWithL cs ds

/-- Python `needle in hay` substring test. -/
def hasSub (needle : Str) : Str → Bool
  | [] => needle.isEmpty
  | c :: t => startsWithL (c :: t) needle || hasSub needle t

/-- `sep.join(xs)`. -/
def joinSep (sep : Str) : List Str → Str
  | [] => []
  | [x] => x
  | x :: y :: t => x ++ sep ++ joinSep sep (y :: t)

/-- Decimal rendering of a `Nat` (fuelled digit extraction). -/
def natDigitsAux : Nat → Nat → Str
  | 0, _ => []
  | _ + 1, 0 => []
  | fuel + 1, n =>
    natDigitsAux fuel (n / 10) ++ [Char.ofNat ('0'.toNat + n % 10)]

def renderNat (n : Nat) : Str :=
  if n = 0 then ['0'] else natDigitsAux (n + 1) n

def renderInt (i : Int) : Str :=
  if i < 0 then '-' :: renderNat i.natAbs else renderNat i.natAbs

/-! ## Executable rational arithmetic

`Rat.add`, `Rat.mul`, … are `@[irreducible]`, so closed computations with
them cannot be settled by `decide`.  The wrappers below go through `mkRat`
(which does reduce) and are proved equal to the ordinary field operations.
-/

/-- Executable addition on `ℚ`. -/
def qadd (a b : ℚ) : ℚ := mkRat (a.num * b.den + b.num * a.den) (a.den * b.den)

/-- Executable subtraction on `ℚ`. -/
def qsub (a b : ℚ) : ℚ := mkRat (a.num * b.den - b.num * a.den) (a.den * b.den)

/-- Executable multiplication on `ℚ`. -/
def qmul (a b : ℚ) : ℚ := mkRat (a.num * b.num) (a.den * b.den)

/-- Executable division on `ℚ` (`x / 0 = 0`, as in Mathlib). -/
def qdiv (a b : ℚ) : ℚ :=
  if 0 ≤ b.num then mkRat (a.num * b.den) (a.den * b.num.toNat)
  else mkRat (-(a.num * b.den)) (a.den * (-b.num).toNat)

/-- Sum of a list of rationals through `qadd` (Python `sum` / `+=`). -/
def qsum (l : List ℚ) : ℚ := l.foldl qadd 0

/-- Python `round` half-to-even on an exact rational, to an integer. -/
def roundEven (x : ℚ) : Int :=
  let n := ⌊x⌋
  let frac := qsub x (n : ℚ)
  if frac < mkRat 1 2 then n
  else if mkRat 1 2 < frac then n + 1
  else if n % 2 = 0 then n else n + 1

/-- `10^k` as a rational, through kernel-reducible `Nat.pow`. -/
def pow10 (k : Nat) : ℚ := mkRat (Int.ofNat (10 ^ k)) 1

/-- Python `round(x, k)`: round half-to-even at `10^k`. -/
def pyRound (k : Nat) (x : ℚ) : ℚ :=
  qdiv (roundEven (qmul x (pow10 k)) : ℚ) (pow10 k)

/-! ## `semantics.py` — Semantic Token Classifier & Safety Veto Engine -/

inductive TokenRole where
  | BASE | SALT | FORM | GRADE | CONC | SAFETY | HAZARD | NOISE
deriving DecidableEq, Repr

structure ClassifiedToken where
  text : Str
  role : TokenRole
  normalized : Str
deriving DecidableEq, Repr

/-- Lift a list of string literals to `List Str`. -/
def strs (l : List String) : List Str := l.map str

/-- Membership of a `Str` in a token set (Python `w in SET`). -/
def memS (w : Str) (s : List Str) : Bool := s.any (fun x => x = w)

def SALT_TOKENS : List Str := strs [
  "sodium", "potassium", "calcium", "magnesium", "zinc", "iron",
  "ferrous", "ferric", "copper", "lithium", "barium", "aluminum",
  "aluminium", "ammonium", "manganese", "cobalt", "nickel", "tin",
  "silver", "mercury", "lead", "chromium", "strontium", "bismuth",
  "titanium",
  "hydrochloride", "hcl", "sulfate", "sulphate", "nitrate",
  "phosphate", "carbonate", "bicarbonate", "chloride", "bromide",
  "iodide", "fluoride", "acetate", "citrate", "tartrate",
  "gluconate", "lactate", "succinate", "fumarate", "maleate",
  "besylate", "mesylate", "tosylate", "triflate", "oxide",
  "hydroxide", "peroxide", "sulfide", "sulphide", "cyanide",
  "azide", "nitrite", "sulfite", "sulphite", "permanganate",
  "dichromate", "chromate", "arsenate", "arsenite", "hypochlorite",
  "stearate", "oleate", "palmitate", "benzoate", "salicylate",
  "oxalate", "malonate", "propionate", "butyrate", "valerate",
  "dihydrate", "trihydrate", "monohydrate", "pentahydrate",
  "hexahydrate", "heptahydrate", "anhydrous"]

def FORM_TOKENS : List Str := strs [
  "pellet", "pellets", "powder", "granule", "granules", "granular",
  "liquid", "solution", "suspension", "emulsion", "gel", "cream",
  "ointment", "tablet", "tablets", "capsule", "capsules", "syrup",
  "injection", "injectable", "spray", "aerosol", "foam", "paste",
  "crystal", "crystals", "crystalline", "flake", "flakes",
  "bead", "beads", "lump", "lumps", "chunk", "chunks",
  "bar", "bars", "rod", "rods", "wire", "sheet", "foil",
  "micronized", "milled", "ground", "crushed", "sieved",
  "coated", "uncoated", "enteric", "sustained", "extended",
  "modified", "delayed", "immediate", "release",
  "sl", "ec", "wp", "wg", "sc", "sp", "dp", "gr",
  "dc",
  "bulk", "raw"]

def GRADE_TOKENS : List Str := strs [
  "usp", "bp", "ep", "jp", "nf", "acs", "ar", "lr", "cp", "fcc",
  "grade", "reagent", "technical", "analytical", "certified",
  "purified", "refined", "crude", "raw",
  "pharmaceutical", "pharma", "food", "cosmetic", "industrial",
  "laboratory", "lab", "research", "commercial",
  "extra", "pure", "ultrapure", "suprapure",
  "api",
  "gmp", "iso", "reach",
  "fertilizer", "herbicide", "pesticide", "insecticide", "fungicide",
  "edible"]

def SAFETY_TOKENS : List Str := strs [
  "flavor", "flavour", "flavoring", "flavouring", "fragrance",
  "perfume", "aroma", "aromatic", "essence", "extract",
  "food", "edible", "dietary", "nutritional", "supplement",
  "vitamin", "vit", "mineral",
  "cosmetic", "skincare", "haircare", "beauty",
  "color", "colour", "dye", "pigment", "colorant", "colourant",
  "wax", "paraffin", "beeswax", "carnauba",
  "gelatin", "gelatine", "capsule", "capsules",
  "starch", "cellulose", "lactose", "sucrose", "dextrose",
  "glycerin", "glycerine", "glycerol",
  "tablet", "tablets", "syrup", "ointment", "cream", "lotion",
  "drops", "inhaler",
  "fertilizer", "manure", "compost", "mulch",
  "lubricant", "grease", "coolant"]

def HAZARD_TOKENS : List Str := strs [
  "phosphorus", "arsenic",
  "cyanogen",
  "explosive", "detonator", "dynamite", "tnt", "nitroglycerin",
  "radioactive", "uranium", "plutonium", "radium", "thorium",
  "nerve", "mustard",
  "phosgene", "chloropicrin", "sarin", "tabun", "vx",
  "hydrofluoric",
  "perchloric", "perchloride",
  "chromic",
  "anfo"]

def DANGEROUS_NAME_PATTERNS : List Str := strs [
  "fuel oil", "ammonium nitrate", "methyl isocyanate",
  "dimethyl sulfate", "hydrogen fluoride", "osmium tetroxide",
  "nerve agent", "mustard gas", "white phosphorus"]

def DANGEROUS_SALT_TOKENS : List Str := strs [
  "arsenate", "arsenite", "cyanide", "azide",
  "chromate", "dichromate", "permanganate",
  "sulfide", "sulphide", "hypochlorite",
  "nitrite"]

def _PHARMA_SUFFIXES : List Str := strs [
  "statin", "prazole", "sartan", "pril", "olol", "dipine",
  "floxacin", "mycin", "cillin", "cycline", "azole", "vir",
  "mab", "nib", "tinib", "zumab", "ximab", "afil", "lukast",
  "gliptin", "glutide", "canide", "setron", "vastatin",
  "profen", "oxacin", "tadine", "zepam", "barb", "done",
  "amine", "quine", "phylline", "caine", "dronate",
  "faxine", "flozin", "grelor", "gliptin", "balin",
  "xaban", "gatran", "pidem", "ridine", "tidine"]

def _EDIBLE_OIL_CONTEXTS : List Str := strs [
  "arachis", "peanut", "olive", "coconut", "sesame", "sunflower",
  "soybean", "soy", "corn", "palm", "rapeseed", "canola",
  "castor", "linseed", "flaxseed", "almond", "walnut",
  "avocado", "jojoba", "argan", "hemp"]

def _NOISE_WORDS : List Str := strs [
  "the", "a", "an", "of", "and", "or", "for", "in", "with",
  "from", "by", "to", "no", "nr", "type", "class", "category",
  "product", "item", "material", "substance", "chemical",
  "compound", "mixture", "blend", "batch", "lot",
  "new", "old", "fresh", "expired",
  "white", "black", "red", "blue", "green", "yellow", "brown",
  "light", "dark", "pale", "bright",
  "heavy", "medium", "fine", "coarse", "thin", "thick"]

/-- `_CONC_PATTERN`: `^[\d.,]+\s*(%|mg/ml|mg/l|g/l|ppm|ppb|w/w|v/v|w/v|mol/l|m|mm|µm)$`
(applied to an already lower-cased token).  The leading `[\d.,]+` is matched
greedily; since no unit starts with a digit, `.` or `,`, maximal munch is
exactly the regex semantics. -/
def concPattern (w : Str) : Bool :=
  let ds := w.takeWhile (fun c => isDigitChar c || c = '.' || c = ',')
  let rest := (w.drop ds.length).dropWhile pyIsSpace
  !ds.isEmpty && memS rest (strs ["%", "mg/ml", "mg/l", "g/l", "ppm", "ppb",
    "w/w", "v/v", "w/v", "mol/l", "m", "mm", "µm"])

/-- `_NUMBER_PATTERN`: `^[\d.,]+$`. -/
def numberPattern (w : Str) : Bool :=
  !w.isEmpty && w.all (fun c => isDigitChar c || c = '.' || c = ',')

/-- `_E_NUMBER_PATTERN`: `^e\d{3,4}[a-z]?$` on a lower-cased token. -/
def eNumberPattern (w : Str) : Bool :=
  match w with
  | 'e' :: rest =>
    let ds := rest.takeWhile isDigitChar
    (ds.length = 3 || ds.length = 4) &&
      (match rest.drop ds.length with
       | [] => true
       | [c] => 'a' ≤ c && c ≤ 'z'
       | _ => false)
  | _ => false

/-- `classify_token(word)` — priority rules, first match wins. -/
def classify_token (word : Str) : TokenRole :=
  if word.isEmpty || (pyStrip word).isEmpty then TokenRole.NOISE
  else
    let w := pyLower (pyStrip word)
    if concPattern w then TokenRole.CONC
    else if numberPattern w then TokenRole.NOISE
    else if w.length ≤ 1 then TokenRole.NOISE
    else if memS w _NOISE_WORDS then TokenRole.NOISE
    else if eNumberPattern w then TokenRole.BASE
    else if memS w GRADE_TOKENS then TokenRole.GRADE
    else if memS w FORM_TOKENS then TokenRole.FORM
    else if memS w SALT_TOKENS then TokenRole.SALT
    else if memS w SAFETY_TOKENS then TokenRole.SAFETY
    else if memS w HAZARD_TOKENS then TokenRole.HAZARD
    else TokenRole.BASE

/-- `classify_name(name)`.  The source replaces runs of `[,;:]` by one space
and every character outside `[\w\s%./\-]` by a space, then splits on
whitespace; replacing each such character by one space is observationally
identical through `str.split()`. -/
def classify_name (name : Str) : List ClassifiedToken :=
  if name.isEmpty then []
  else
    let clean1 := name.map (fun c => if c = ',' || c = ';' || c = ':' then ' ' else c)
    let clean2 := clean1.map (fun c =>
      if isWordChar c || pyIsSpace c || c = '%' || c = '.' || c = '/' || c = '-' then c else ' ')
    (splitWs clean2).filterMap (fun t =>
      let ts := pyStripChars ['.'] (pyStripChars ['-'] (pyStrip t))
      if ts.isEmpty then none
      else some ⟨ts, classify_token ts, pyLower ts⟩)

def extract_base_tokens (classified : List ClassifiedToken) : List Str :=
  (classified.filter (fun t => t.role = TokenRole.BASE)).map (·.normalized)

def extract_salt_tokens (classified : List ClassifiedToken) : List Str :=
  (classified.filter (fun t => t.role = TokenRole.SALT)).map (·.normalized)

def has_safety_context (classified : List ClassifiedToken) : Bool :=
  classified.any (fun t => t.role = TokenRole.SAFETY)

/-- `has_hazard_tokens(classified, full_name)`. -/
def has_hazard_tokens (classified : List ClassifiedToken) (full_name : Str) : Bool :=
  classified.any (fun t =>
    t.role = TokenRole.HAZARD ||
      (t.role = TokenRole.SALT && memS t.normalized DANGEROUS_SALT_TOKENS)) ||
  (!full_name.isEmpty &&
    DANGEROUS_NAME_PATTERNS.any (fun p => hasSub p (pyLower full_name)))

def endsWithL (l s : Str) : Bool := startsWithL l.reverse s.reverse

def is_pharma_name (name : Str) : Bool :=
  _PHARMA_SUFFIXES.any (fun suf => endsWithL (pyStrip (pyLower name)) suf)

/-- `is_edible_oil_context(name)`; `re.split` on runs of `[\s,;:()/\-]`
may additionally produce empty strings at the ends, which never occur in
`_EDIBLE_OIL_CONTEXTS`, so they are dropped here. -/
def is_edible_oil_context (name : Str) : Bool :=
  let lower := pyLower name
  hasSub (str "oil") lower &&
    (splitWsAux (lower.map (fun c =>
      if pyIsSpace c || c = ',' || c = ';' || c = ':' || c = '(' || c = ')' || c = '/' || c = '-'
      then ' ' else c)) []).any
      (fun w => memS w _EDIBLE_OIL_CONTEXTS)

/-- `TokenRole.value` (the `str` mixin of the Python enum). -/
def roleValue : TokenRole → Str
  | TokenRole.BASE => str "BASE"
  | TokenRole.SALT => str "SALT"
  | TokenRole.FORM => str "FORM"
  | TokenRole.GRADE => str "GRADE"
  | TokenRole.CONC => str "CONC"
  | TokenRole.SAFETY => str "SAFETY"
  | TokenRole.HAZARD => str "HAZARD"
  | TokenRole.NOISE => str "NOISE"

/-- `dict.setdefault(k, []).append(v)` on an insertion-ordered assoc list. -/
def summaryInsert (k v : Str) : List (Str × List Str) → List (Str × List Str)
  | [] => [(k, [v])]
  | (k₁, vs) :: t =>
    if k₁ = k then (k₁, vs ++ [v]) :: t else (k₁, vs) :: summaryInsert k v t

/-- `_roles_summary(tokens)`. -/
def _roles_summary (tokens : List ClassifiedToken) : List (Str × List Str) :=
  tokens.foldl (fun acc t => summaryInsert (roleValue t.role) t.text acc) []

/-- Python `set(...)` of strings, modelled as first-occurrence-ordered
duplicate-free list. -/
def dedupS (l : List Str) : List Str :=
  l.foldl (fun acc x => if memS x acc then acc else acc ++ [x]) []

/-- `len(a & b)` for `a` duplicate-free. -/
def interCount (a b : List Str) : Nat := (a.filter (fun x => memS x b)).length

/-- Python `a <= b` on sets. -/
def subsetS (a b : List Str) : Bool := a.all (fun x => memS x b)

/-- `_overlap_ratio(input_set, candidate_set)`. -/
def _overlap_ratio (input_set candidate_set : List Str) : ℚ :=
  if input_set.isEmpty then 0
  else mkRat (interCount input_set candidate_set) input_set.length

/-- Python `repr` of a set of strings, with the model-fixed insertion order. -/
def pySetRepr (l : List Str) : Str :=
  str "\x7b" ++ joinSep (str ", ") (l.map (fun b => str "\x27" ++ b ++ str "\x27")) ++ str "\x7d"

structure SemResult where
  score : ℚ
  base_overlap : ℚ
  salt_overlap : ℚ
  vetoed : Bool
  veto_reason : Option Str
  input_roles : List (Str × List Str)
  candidate_roles : List (Str × List Str)
deriving DecidableEq, Repr

/-- `semantic_score(input_name, candidate_name)` — the safety-veto engine. -/
def semantic_score (input_name candidate_name : Str) : SemResult :=
  let input_tokens := classify_name input_name
  let cand_tokens := classify_name candidate_name
  let input_bases := dedupS (extract_base_tokens input_tokens)
  let cand_bases := dedupS (extract_base_tokens cand_tokens)
  let input_salts := dedupS (extract_salt_tokens input_tokens)
  let cand_salts := dedupS (extract_salt_tokens cand_tokens)
  let input_has_safety := has_safety_context input_tokens
  let cand_has_hazard := has_hazard_tokens cand_tokens candidate_name
  let labels₀ := cand_tokens.filterMap (fun t =>
    if t.role = TokenRole.HAZARD then some t.text
    else if t.role = TokenRole.SALT && memS t.normalized DANGEROUS_SALT_TOKENS then some t.text
    else none)
  let cand_lower := pyLower candidate_name
  let cand_hazard_labels := DANGEROUS_NAME_PATTERNS.foldl (fun acc p =>
    if hasSub p cand_lower && !(memS p (acc.map pyLower)) then acc ++ [p] else acc) labels₀
  let hazLabels := joinSep (str ", ") cand_hazard_labels
  -- Rule 1: SAFETY input + HAZARD candidate
  let veto₁ : Option Str :=
    if input_has_safety && cand_has_hazard then
      some (str "Safety veto: input has safety context [" ++
        joinSep (str ", ") (input_tokens.filterMap (fun t =>
          if t.role = TokenRole.SAFETY then some t.text else none)) ++
        str "] but candidate contains hazard [" ++ hazLabels ++ str "]")
    else none
  -- Rule 2: pharma drug name vs industrial hazmat
  let veto₂ : Option Str :=
    match veto₁ with
    | some r => some r
    | none =>
      if cand_has_hazard then
        match input_tokens.find? (fun t => t.role = TokenRole.BASE && is_pharma_name t.text) with
        | some t => some (str "Pharma veto: \x27" ++ t.text ++
            str "\x27 is a drug name, candidate has hazard tokens [" ++ hazLabels ++ str "]")
        | none => none
      else none
  -- Rule 3: BASE mismatch + hazardous candidate
  let veto₃ : Option Str :=
    match veto₂ with
    | some r => some r
    | none =>
      if cand_has_hazard && !input_bases.isEmpty && interCount input_bases cand_bases = 0 then
        some (str "Base+hazard veto: input base tokens " ++ pySetRepr input_bases ++
          str " not found in hazardous candidate [" ++ hazLabels ++ str "]")
      else none
  -- Rule 4: edible oil context vs fuel/explosive candidate
  let veto₄ : Option Str :=
    match veto₃ with
    | some r => some r
    | none =>
      if is_edible_oil_context input_name &&
          (hasSub (str "fuel") cand_lower || hasSub (str "nitrate") cand_lower ||
           hasSub (str "explosive") cand_lower || hasSub (str "mixture") cand_lower) then
        some (str "Edible oil veto: \x27" ++ input_name ++
          str "\x27 is edible oil, candidate \x27" ++ candidate_name ++
          str "\x27 contains fuel/explosive context")
      else none
  match veto₄ with
  | some reason =>
    { score := 0, base_overlap := 0, salt_overlap := 0, vetoed := true,
      veto_reason := some reason,
      input_roles := _roles_summary input_tokens,
      candidate_roles := _roles_summary cand_tokens }
  | none =>
    let base_overlap := if input_bases.isEmpty then 0 else _overlap_ratio input_bases cand_bases
    let salt_overlap := if input_salts.isEmpty then 0 else _overlap_ratio input_salts cand_salts
    let score₀ :=
      if !input_bases.isEmpty && base_overlap = 0 then
        min (qmul salt_overlap (mkRat 25 100)) (mkRat 35 100)
      else if input_bases.isEmpty then
        qmul salt_overlap (mkRat 50 100)
      else
        let s := qadd (qmul base_overlap (mkRat 60 100)) (qmul salt_overlap (mkRat 25 100))
        let s := if !input_bases.isEmpty && subsetS input_bases cand_bases
          then qadd s (mkRat 10 100) else s
        if !input_salts.isEmpty && subsetS input_salts cand_salts
          then qadd s (mkRat 5 100) else s
    let input_conc := dedupS ((input_tokens.filter
      (fun t => t.role = TokenRole.CONC)).map (·.normalized))
    let score₁ := if !input_conc.isEmpty && input_bases.isEmpty && input_salts.isEmpty
      then 0 else score₀
    let score₂ := max 0 (min 1 score₁)
    { score := score₂, base_overlap := pyRound 3 base_overlap,
      salt_overlap := pyRound 3 salt_overlap, vetoed := false, veto_reason := none,
      input_roles := _roles_summary input_tokens,
      candidate_roles := _roles_summary cand_tokens }

/-! ## CAS validation (`semantics.py` bottom + `clean.py`) -/

/-- `^\d{2,7}-\d{2}-\d$` (full match).  Since a valid match must be followed
by `-`, the greedy `\d{2,7}` is exactly maximal munch. -/
def casFormatB (l : Str) : Bool :=
  let ds := l.takeWhile isDigitChar
  2 ≤ ds.length && ds.length ≤ 7 &&
    (match l.drop ds.length with
     | '-' :: d₁ :: d₂ :: '-' :: d₃ :: [] => isDigitChar d₁ && isDigitChar d₂ && isDigitChar d₃
     | _ => false)

/-- `sum((i + 1) * int(d) for i, d in enumerate(reversed(body)))`, the
argument being `body` already reversed. -/
def wsumRev : Nat → Str → Nat
  | _, [] => 0
  | i, d :: t => (i + 1) * digitVal d + wsumRev (i + 1) t

/-- `total % 10 == check` for a dash-free digit string. -/
def casChecksumHolds (digits : Str) : Bool :=
  match digits.reverse with
  | [] => false
  | check :: revBody => (wsumRev 0 revBody) % 10 = digitVal check

/-- `semantics.is_plausible_cas(raw)`. -/
def is_plausible_cas (raw : Str) : Bool :=
  if raw.isEmpty || (pyStrip raw).isEmpty then false
  else
    let cas := pyStrip raw
    if !casFormatB cas then false
    else if cas.length < 7 || cas.length > 12 then false
    else
      let digits := removeChar '-' cas
      if !pyIsDigitStr digits || digits.length < 5 then false
      else casChecksumHolds digits

/-- `semantics.is_likely_product_code(raw)`. -/
def is_likely_product_code (raw : Str) : Bool :=
  if raw.isEmpty then false
  else
    let digits_only := stripSpaceDash raw
    if !pyIsDigitStr digits_only then false
    else if digits_only.length > 10 then true
    else if digits_only.length ≥ 8 &&
        memS (digits_only.take 3) (strs ["111", "112", "110", "100", "200", "300"]) then true
    else false

/-- `clean.validate_cas(cas_string) -> (is_valid, cleaned_cas_or_error)`. -/
def validate_cas (cas_string : Str) : Bool × Str :=
  if cas_string.isEmpty || (pyStrip cas_string).isEmpty then (false, str "Empty CAS")
  else
    let cas := removeChar ' ' (pyStrip cas_string)
    if !casFormatB cas then (false, str "Invalid format: " ++ cas_string)
    else
      let digits_only := removeChar '-' cas
      if casChecksumHolds digits_only then (true, cas)
      else (false, str "Checksum failed: " ++ cas)

/-- `clean.reconstruct_cas_from_digits(digits)`. -/
def reconstruct_cas_from_digits (digits : Str) : Option Str :=
  if !pyIsDigitStr digits || digits.length < 5 || digits.length > 10 then none
  else if is_likely_product_code digits then none
  else
    match digits.reverse with
    | check :: g₂ :: g₁ :: revBody =>
      let body := revBody.reverse
      if body.isEmpty then none
      else
        let candidate := body ++ '-' :: g₁ :: g₂ :: '-' :: [check]
        if !is_plausible_cas candidate then none
        else
          let r := validate_cas candidate
          if r.1 then some r.2 else none
    | _ => none

/-! ## The CAS regex `\b(\d{2,7}-\d{2}-\d)\b` (match.py / clean.py) -/

/-- Take exactly `n` digits from the front. -/
def takeDigitsN : Nat → Str → Option (Str × Str)
  | 0, l => some ([], l)
  | _ + 1, [] => none
  | n + 1, c :: t =>
    if isDigitChar c then
      match takeDigitsN n t with
      | some (d, r) => some (c :: d, r)
      | none => none
    else none

/-- Trailing `\b`: next character is absent or not a word character. -/
def boundaryAfter : Str → Bool
  | [] => true
  | c :: _ => !isWordChar c

/-- Try to match `\d{k}-\d{2}-\d\b` at the start, returning match and rest. -/
def tryCasLen (k : Nat) (l : Str) : Option (Str × Str) :=
  match takeDigitsN k l with
  | some (d₁, '-' :: r₁) =>
    (match takeDigitsN 2 r₁ with
     | some (d₂, '-' :: r₂) =>
       (match takeDigitsN 1 r₂ with
        | some (d₃, rest) =>
          if boundaryAfter rest then some (d₁ ++ '-' :: d₂ ++ '-' :: d₃, rest) else none
        | none => none)
     | _ => none)
  | _ => none

/-- The greedy `\d{2,7}` tries 7 digits first, backtracking down to 2. -/
def tryCasAt (l : Str) : Option (Str × Str) :=
  [7, 6, 5, 4, 3, 2].findSome? (fun k => tryCasLen k l)

/-- `CAS_REGEX.findall(s)` (non-overlapping, left to right).  The leading
`\b` holds iff the previous character is absent or not a word character,
because the first matched character is a digit. -/
def casFindAllAux : Nat → Bool → Str → List Str
  | 0, _, _ => []
  | _ + 1, _, [] => []
  | fuel + 1, prevWord, c :: t =>
    if !prevWord then
      match tryCasAt (c :: t) with
      | some (m, rest) => m :: casFindAllAux fuel true rest
      | none => casFindAllAux fuel (isWordChar c) t
    else casFindAllAux fuel (isWordChar c) t

def casRegexFindall (l : Str) : List Str := casFindAllAux l.length false l

/-- `CAS_REGEX.match(s)` (anchored at the start only). -/
def casRegexMatchStart (l : Str) : Bool := (tryCasAt l).isSome

/-! ## `match.py` — Hybrid Multi-Signal Chemical Matching Engine -/

/-- Association-list lookup (Python `dict.get(k)` / `k in dict`). -/
def alookup {α β : Type} [DecidableEq α] (k : α) : List (α × β) → Option β
  | [] => none
  | (k₁, v) :: t => if k₁ = k then some v else alookup k t

/-- Python `dict.get(k, d)` / indexing with a known-present key. -/
def aget {α β : Type} [DecidableEq α] (k : α) (d : β) (l : List (α × β)) : β :=
  (alookup k l).getD d

/-- `dict[k] = v`: update in place if present, else append. -/
def mapSet {α β : Type} [DecidableEq α] (k : α) (v : β) : List (α × β) → List (α × β)
  | [] => [(k, v)]
  | (k₁, v₁) :: t => if k₁ = k then (k₁, v) :: t else (k₁, v₁) :: mapSet k v t

/-- `dict.setdefault(k, []).append(v)`. -/
def mapAppend {α : Type} [DecidableEq α] {β : Type} (k : α) (v : β) :
    List (α × List β) → List (α × List β)
  | [] => [(k, [v])]
  | (k₁, vs) :: t => if k₁ = k then (k₁, vs ++ [v]) :: t else (k₁, vs) :: mapAppend k v t

/-- `SIGNAL_WEIGHTS`. -/
def SIGNAL_WEIGHTS : List (Str × ℚ) := [
  (str "cas_exact", 1),
  (str "cas_scanned", mkRat 95 100),
  (str "cas_from_name", mkRat 90 100),
  (str "name_exact", mkRat 90 100),
  (str "name_synonym", mkRat 85 100),
  (str "name_normalized", mkRat 80 100),
  (str "name_fuzzy", mkRat 70 100),
  (str "formula_exact", mkRat 75 100),
  (str "formula_norm", mkRat 65 100),
  (str "un_exact", mkRat 80 100),
  (str "synonym_fuzzy", mkRat 65 100)]

/-- `SIGNAL_WEIGHTS[s]` for a key present in the table. -/
def weightOf (s : String) : ℚ := aget (str s) 0 SIGNAL_WEIGHTS

def THRESHOLD_MATCHED : ℚ := mkRat 85 100

def THRESHOLD_REVIEW : ℚ := mkRat 60 100

/-- `match._normalize`: drop non-alphanumerics, lowercase. -/
def _normalize (s : Str) : Str :=
  (pyLower s).filter (fun c => ('a' ≤ c && c ≤ 'z') || isDigitChar c)

/-- `match._normalize_formula`: drop whitespace, lowercase. -/
def _normalize_formula (f : Str) : Str :=
  pyLower (f.filter (fun c => !pyIsSpace c))

/-- `match._validate_cas_checksum(cas)`. -/
def _validate_cas_checksum (cas : Str) : Bool :=
  let digits := removeChar '-' cas
  if !pyIsDigitStr digits || digits.length < 5 then false
  else casChecksumHolds digits

structure Signal where
  chemical_id : Nat
  chemical_name : Str
  source : Str
  raw_score : ℚ
  weight : ℚ
  detail : Str
deriving DecidableEq, Repr

def Signal.weighted_score (s : Signal) : ℚ := qmul s.raw_score s.weight

structure SignalDict where
  chemical_id : Nat
  chemical_name : Str
  source : Str
  score : ℚ
  weighted : ℚ
  detail : Str
deriving DecidableEq, Repr

def Signal.to_dict (s : Signal) : SignalDict :=
  { chemical_id := s.chemical_id, chemical_name := s.chemical_name,
    source := s.source,
    score := pyRound 1 (qmul s.raw_score (mkRat 100 1)),
    weighted := pyRound 1 (qmul s.weighted_score (mkRat 100 1)),
    detail := s.detail }

/-- A `{'id': ..., 'name': ...}` cache entry.  (The CAS cache entries also
carry the raw CAS string in the source; it is never read, so it is omitted.) -/
structure Entry where
  id : Nat
  name : Str
deriving DecidableEq, Repr

structure Caches where
  cas_map : List (Str × List Entry)
  name_map : List (Str × Entry)
  norm_map : List (Str × Entry)
  synonym_map : List (Str × List Entry)
  formula_map : List (Str × List Entry)
  un_map : List (Int × List Entry)
  fuzzy_names : List Str
  fuzzy_name_to_entry : List (Str × Entry)
  fuzzy_syns : List Str
  fuzzy_syn_to_entry : List (Str × Entry)
deriving DecidableEq, Repr

def emptyCaches : Caches := ⟨[], [], [], [], [], [], [], [], [], []⟩

/-- One row of the `chemicals` table.  `name` is the canonical name
(`NOT NULL` in the reference store); `synonyms`/`formulas` are the
pipe-separated columns, with SQL `NULL` represented by `[]` exactly as the
source's `row['synonyms'] or ''` does. -/
structure ChemRow where
  id : Nat
  name : Str
  synonyms : Str
  formulas : Str
deriving DecidableEq, Repr

/-- One row of `chemical_cas`. -/
structure CasAssocRow where
  cas_id : Str
  chem_id : Nat
deriving DecidableEq, Repr

/-- One row of `chemical_unna` (`unna_id` already as the integer the source
obtains via `int(row['unna_id'])`). -/
structure UnAssocRow where
  unna_id : Int
  chem_id : Nat
deriving DecidableEq, Repr

/-- The reference chemical store (`chemicals.db`). -/
structure Database where
  chemicals : List ChemRow
  chemical_cas : List CasAssocRow
  chemical_unna : List UnAssocRow
deriving DecidableEq, Repr

/-- `SELECT cc.cas_id, ch.id, ch.name FROM chemical_cas cc JOIN chemicals ch
ON ch.id = cc.chem_id`, in nested-loop order. -/
def casJoinRows (db : Database) : List (Str × Entry) :=
  db.chemical_cas.flatMap (fun cc =>
    (db.chemicals.filter (fun ch => ch.id = cc.chem_id)).map
      (fun ch => (cc.cas_id, Entry.mk ch.id ch.name)))

/-- The UN join, analogously. -/
def unJoinRows (db : Database) : List (Int × Entry) :=
  db.chemical_unna.flatMap (fun cu =>
    (db.chemicals.filter (fun ch => ch.id = cu.chem_id)).map
      (fun ch => (cu.unna_id, Entry.mk ch.id ch.name)))

/-- The per-`chemicals`-row body of `_ensure_caches` (names, synonyms,
formulas). -/
def chemStep (acc : Caches) (row : ChemRow) : Caches :=
  let name := pyStrip row.name
  let entry : Entry := ⟨row.id, name⟩
  let acc :=
    if !name.isEmpty then
      let acc := { acc with name_map := mapSet (pyUpper name) entry acc.name_map }
      let name_norm := _normalize name
      let acc := if !name_norm.isEmpty then
          { acc with norm_map := mapSet name_norm entry acc.norm_map }
        else acc
      let low := pyLower name
      { acc with fuzzy_names := acc.fuzzy_names ++ [low],
                 fuzzy_name_to_entry := mapSet low entry acc.fuzzy_name_to_entry }
    else acc
  let acc := (splitOnCh '|' row.synonyms).foldl (fun acc syn₀ =>
    let syn := pyStrip syn₀
    if syn.isEmpty then acc
    else
      let acc := { acc with synonym_map := mapAppend (pyUpper syn) entry acc.synonym_map }
      let syn_norm := _normalize syn
      let acc := if !syn_norm.isEmpty && alookup syn_norm acc.norm_map = none then
          { acc with norm_map := mapSet syn_norm entry acc.norm_map }
        else acc
      let syn_low := pyLower syn
      if alookup syn_low acc.fuzzy_syn_to_entry = none then
        { acc with fuzzy_syns := acc.fuzzy_syns ++ [syn_low],
                   fuzzy_syn_to_entry := mapSet syn_low entry acc.fuzzy_syn_to_entry }
      else acc) acc
  (splitOnCh '|' row.formulas).foldl (fun acc f₀ =>
    let f := pyStrip f₀
    if f.isEmpty then acc
    else { acc with formula_map := mapAppend (_normalize_formula f) entry acc.formula_map }) acc

/-- `_ensure_caches` cache construction from the reference store. -/
def buildCaches (db : Database) : Caches :=
  let c₀ := { emptyCaches with
    cas_map := (casJoinRows db).foldl
      (fun m p => mapAppend (stripSpaceDash p.1) p.2 m) [],
    un_map := (unJoinRows db).foldl
      (fun m p => mapAppend p.1 p.2 m) [] }
  db.chemicals.foldl chemStep c₀

/-- The engine with its lazily-built caches (`__init__` sets `loaded = False`). -/
structure HybridMatcher where
  db : Database
  loaded : Bool
  caches : Caches
deriving DecidableEq, Repr

def HybridMatcher.init (db : Database) : HybridMatcher := ⟨db, false, emptyCaches⟩

def _ensure_caches (m : HybridMatcher) : HybridMatcher :=
  if m.loaded then m else { m with loaded := true, caches := buildCaches m.db }

/-- `rapidfuzz.process.extract(query, corpus, scorer=fuzz.WRatio, limit=n)`,
abstracted as a parameter (the design notes call this the swappable
`SimilarityScorer` capability): returns `(corpus string, score)` pairs. -/
def Extractor : Type := Str → List Str → Nat → List (Str × ℚ)

/-- The cleaned row dict, with the fields `match` reads.  A missing key /
`None` is `none`; `cas_valid` defaults to `False` as in
`cleaned.get('cas_valid', False)`. -/
structure Cleaned where
  cas : Option Str
  cas_valid : Bool
  cas_scanned : Option Str
  name : Option Str
  formula : Option Str
  un_number : Option Str
deriving DecidableEq, Repr

/-- `(x or '')` for an optional string. -/
def optStr (o : Option Str) : Str := o.getD []

structure Suggestion where
  chemical_id : Nat
  chemical_name : Str
  score : ℚ
deriving DecidableEq, Repr

structure MatchResult where
  chemical_id : Option Nat
  chemical_name : Option Str
  match_method : Str
  confidence : ℚ
  match_status : Str
  suggestions : List Suggestion
  signals : List SignalDict
  conflicts : List Str
  field_swaps : List Str
deriving DecidableEq, Repr

def _build_result (chemical_id : Option Nat) (chemical_name : Option Str)
    (method : Str) (confidence : ℚ) (status : Str)
    (suggestions : List Suggestion) (signals : List Signal)
    (conflicts field_swaps : List Str) : MatchResult :=
  { chemical_id := chemical_id, chemical_name := chemical_name,
    match_method := method, confidence := pyRound 4 confidence,
    match_status := status, suggestions := suggestions,
    signals := signals.map Signal.to_dict,
    conflicts := conflicts, field_swaps := field_swaps }

/-- Stable ascending insertion by name length (`sorted(hits, key=len(name))`). -/
def insertByNameLen (e : Entry) : List Entry → List Entry
  | [] => [e]
  | x :: t => if x.name.length ≤ e.name.length then x :: insertByNameLen e t
              else e :: x :: t

def sortByNameLen (l : List Entry) : List Entry :=
  l.foldl (fun acc e => insertByNameLen e acc) []

/-- `f"{score:.0f}"`. -/
def fmt0 (x : ℚ) : Str := renderInt (roundEven x)

/-- `_signals_from_cas(cas, source)`. -/
def _signals_from_cas (c : Caches) (cas : Str) (source : Str) : List Signal :=
  let stripped := stripSpaceDash cas
  let hits := aget stripped [] c.cas_map
  if hits.isEmpty then []
  else
    let sorted_hits := sortByNameLen hits
    let w := aget source (mkRat 5 10) SIGNAL_WEIGHTS
    ((sorted_hits.take 3).enum).map (fun p =>
      { chemical_id := p.2.id, chemical_name := p.2.name, source := source,
        raw_score := if p.1 = 0 then 1 else mkRat 6 10, weight := w,
        detail := str "CAS " ++ cas ++ str " → " ++ p.2.name })

/-- The fuzzy-name loop body of `_signals_from_name`. -/
def fuzzyNameStep (c : Caches) (name : Str) (st : List Signal × List Nat)
    (m : Str × ℚ) : List Signal × List Nat :=
  match alookup m.1 c.fuzzy_name_to_entry with
  | some entry =>
    if !st.2.contains entry.id && mkRat 70 1 ≤ m.2 then
      (st.1 ++ [⟨entry.id, entry.name, str "name_fuzzy", qdiv m.2 (mkRat 100 1),
          weightOf "name_fuzzy",
          str "Fuzzy name: \x27" ++ name ++ str "\x27 ≈ \x27" ++ entry.name ++
            str "\x27 (" ++ fmt0 m.2 ++ str "%)"⟩],
       st.2 ++ [entry.id])
    else st
  | none => st

/-- The fuzzy-synonym loop body of `_signals_from_name`. -/
def fuzzySynStep (c : Caches) (name : Str) (st : List Signal × List Nat)
    (m : Str × ℚ) : List Signal × List Nat :=
  match alookup m.1 c.fuzzy_syn_to_entry with
  | some entry =>
    if !st.2.contains entry.id && mkRat 70 1 ≤ m.2 then
      (st.1 ++ [⟨entry.id, entry.name, str "synonym_fuzzy", qdiv m.2 (mkRat 100 1),
          weightOf "synonym_fuzzy",
          str "Fuzzy synonym: \x27" ++ name ++ str "\x27 ≈ \x27" ++ m.1 ++
            str "\x27 → " ++ entry.name ++ str " (" ++ fmt0 m.2 ++ str "%)"⟩],
       st.2 ++ [entry.id])
    else st
  | none => st

/-- The exact-name, exact-synonym and normalized signals of
`_signals_from_name` (everything before the fuzzy loops). -/
def exactNameSignals (c : Caches) (name : Str) : List Signal :=
  let name_upper := pyStrip (pyUpper name)
  let name_norm := _normalize name
  let sigs : List Signal :=
    match alookup name_upper c.name_map with
    | some hit => [⟨hit.id, hit.name, str "name_exact", 1, weightOf "name_exact",
        str "Exact name match: \x27" ++ name ++ str "\x27"⟩]
    | none => []
  let sigs := sigs ++ (aget name_upper [] c.synonym_map).map (fun sh =>
    ⟨sh.id, sh.name, str "name_synonym", 1, weightOf "name_synonym",
      str "Exact synonym match: \x27" ++ name ++ str "\x27 → " ++ sh.name⟩)
  if !name_norm.isEmpty then
    match alookup name_norm c.norm_map with
    | some hit =>
      if !(sigs.any (fun s => s.chemical_id = hit.id &&
          (s.source = str "name_exact" || s.source = str "name_synonym"))) then
        sigs ++ [⟨hit.id, hit.name, str "name_normalized", 1, weightOf "name_normalized",
          str "Normalized match: \x27" ++ name ++ str "\x27 → " ++ hit.name⟩]
      else sigs
    | none => sigs
  else sigs

/-- `_signals_from_name(name)`. -/
def _signals_from_name (c : Caches) (ex : Extractor) (name : Str) : List Signal :=
  let name_lower := pyStrip (pyLower name)
  let sigs := exactNameSignals c name
  let already_found := sigs.map (fun s => s.chemical_id)
  let st := (if !c.fuzzy_names.isEmpty then ex name_lower c.fuzzy_names 5 else []).foldl
    (fuzzyNameStep c name) (sigs, already_found)
  let st := (if !c.fuzzy_syns.isEmpty then ex name_lower c.fuzzy_syns 5 else []).foldl
    (fuzzySynStep c name) st
  st.1

/-- `_signals_from_formula(formula)`. -/
def _signals_from_formula (c : Caches) (formula : Str) : List Signal :=
  let fnorm := _normalize_formula formula
  let hits := aget fnorm [] c.formula_map
  (hits.take 3).map (fun hit =>
    ⟨hit.id, hit.name, str "formula_exact", 1, weightOf "formula_exact",
      str "Formula match: \x27" ++ formula ++ str "\x27 → " ++ hit.name⟩)

/-- `_signals_from_un(un_number)`. -/
def _signals_from_un (c : Caches) (un_number : Str) : List Signal :=
  match pyInt un_number with
  | none => []
  | some un_int =>
    let hits := aget un_int [] c.un_map
    if hits.isEmpty then []
    else
      let sorted_hits := sortByNameLen hits
      let w := weightOf "un_exact"
      ((sorted_hits.take 3).enum).map (fun p =>
        { chemical_id := p.2.id, chemical_name := p.2.name, source := str "un_exact",
          raw_score := if p.1 = 0 then 1 else mkRat 6 10, weight := w,
          detail := str "UN " ++ renderInt un_int ++ str " → " ++ p.2.name })

/-- `_fuzzy_suggestions(name, exclude_ids, limit)`. -/
def _fuzzy_suggestions (c : Caches) (ex : Extractor) (name : Str)
    (exclude_ids : List Nat) (limit : Nat) : List Suggestion :=
  let name_lower := pyLower name
  if c.fuzzy_names.isEmpty then []
  else
    ((ex name_lower c.fuzzy_names (limit + exclude_ids.length)).foldl
      (fun (st : List Suggestion × List Nat) m =>
        if st.1.length ≥ limit then st
        else
          match alookup m.1 c.fuzzy_name_to_entry with
          | some entry =>
            if !st.2.contains entry.id then
              (st.1 ++ [⟨entry.id, entry.name, pyRound 1 m.2⟩], st.2 ++ [entry.id])
            else st
          | none => st) ([], exclude_ids)).1

/-- `source.split('_')[0]` — the category of a signal source tag. -/
def sourceCat (source : Str) : Str := (splitOnCh '_' source).headD []

/-- `set.add(x)` on an insertion-ordered duplicate-free list of strings. -/
def addToSetS (x : Str) (s : List Str) : List Str :=
  if memS x s then s else s ++ [x]

/-- `set.add(x)` for candidate ids. -/
def addToSetN (x : Nat) (s : List Nat) : List Nat :=
  if s.contains x then s else s ++ [x]

/-- `len(a & b)` for id sets. -/
def interCountN (a b : List Nat) : Nat := (a.filter (fun x => b.contains x)).length

/-- One step of the `candidate_best_per_type` aggregation loop. -/
def aggStep (m : List (Nat × List (Str × Signal))) (sig : Signal) :
    List (Nat × List (Str × Signal)) :=
  let update := fun (tm : List (Str × Signal)) =>
    match alookup sig.source tm with
    | none => mapSet sig.source sig tm
    | some existing =>
      if existing.weighted_score < sig.weighted_score then mapSet sig.source sig tm
      else tm
  match m with
  | [] => [(sig.chemical_id, update [])]
  | (cid, tm) :: t =>
    if cid = sig.chemical_id then (cid, update tm) :: t
    else (cid, tm) :: aggStep t sig

/-- `candidate_best_per_type`: for each candidate, best signal per source tag. -/
def candidateBestPerType (signals : List Signal) : List (Nat × List (Str × Signal)) :=
  signals.foldl aggStep []

/-- `candidate_names` (`candidate_names[cid] = sig.chemical_name` per signal). -/
def candidateNames (signals : List Signal) : List (Nat × Str) :=
  signals.foldl (fun m sig => mapSet sig.chemical_id sig.chemical_name m) []

/-- `best_sig` selection inside the per-candidate loop (first strict maximum). -/
def bestSigOf : List Signal → Option Signal
  | [] => none
  | s :: t => some (t.foldl (fun b x => if b.weighted_score < x.weighted_score then x else b) s)

/-- `candidate_scores[cid] = sum of best signal per source type`. -/
def candidateScores (signals : List Signal) : List (Nat × ℚ) :=
  (candidateBestPerType signals).map (fun p =>
    (p.1, (p.2.map (fun q => q.2)).foldl (fun t s => qadd t s.weighted_score) 0))

/-- `candidate_methods[cid] = best_sig.source if best_sig else 'unmatched'`. -/
def candidateMethods (signals : List Signal) : List (Nat × Str) :=
  (candidateBestPerType signals).map (fun p =>
    (p.1, ((bestSigOf (p.2.map (fun q => q.2))).map (fun s => s.source)).getD (str "unmatched")))

/-- Categories with a useful (weighted ≥ 0.50) signal. -/
def categoriesWithUsefulSignals (signals : List Signal) : List Str :=
  signals.foldl (fun s sig =>
    if mkRat 50 100 ≤ sig.weighted_score then addToSetS (sourceCat sig.source) s else s) []

/-- Which input fields were present (the truthiness tests of `match`'s
theoretical-max block), plus the cleaned `name` used for extra suggestions. -/
structure FuseIn where
  cas_any : Bool
  name_any : Bool
  formula_any : Bool
  un_any : Bool
  name : Str
deriving DecidableEq, Repr

/-- `input_category_weights`. -/
def inputCategoryWeights (fi : FuseIn) (signals : List Signal) : List (Str × ℚ) :=
  let cats := categoriesWithUsefulSignals signals
  let w₁ :=
    (if fi.cas_any && memS (str "cas") cats then [(str "cas", weightOf "cas_exact")] else []) ++
    (if fi.name_any && (memS (str "name") cats || memS (str "synonym") cats) then
      [(str "name", weightOf "name_exact")] else []) ++
    (if fi.formula_any && memS (str "formula") cats then
      [(str "formula", weightOf "formula_exact")] else []) ++
    (if fi.un_any && memS (str "un") cats then [(str "un", weightOf "un_exact")] else [])
  if w₁.isEmpty then
    (if fi.cas_any then [(str "cas", weightOf "cas_exact")] else []) ++
    (if fi.name_any then [(str "name", weightOf "name_exact")] else []) ++
    (if fi.formula_any then [(str "formula", weightOf "formula_exact")] else []) ++
    (if fi.un_any then [(str "un", weightOf "un_exact")] else [])
  else w₁

/-- `theoretical_max`. -/
def theoreticalMax (fi : FuseIn) (signals : List Signal) : ℚ :=
  max ((inputCategoryWeights fi signals).foldl (fun a p => qadd a p.2) 0) (mkRat 1 100)

/-- Stable descending insertion by score
(`sorted(candidate_scores.items(), key=lambda x: x[1], reverse=True)`). -/
def insertByScoreDesc (p : Nat × ℚ) : List (Nat × ℚ) → List (Nat × ℚ)
  | [] => [p]
  | x :: t => if p.2 ≤ x.2 then x :: insertByScoreDesc p t else p :: x :: t

def sortDescByScore (l : List (Nat × ℚ)) : List (Nat × ℚ) :=
  l.foldl (fun acc p => insertByScoreDesc p acc) []

/-- `name.split(',')[0].strip().upper()` guarded by truthiness. -/
def baseOf (name : Str) : Str :=
  if !name.isEmpty then pyUpper (pyStrip ((splitOnCh ',' name).headD [])) else []

/-- `agreeing_categories`. -/
def agreeingCategories (signals : List Signal) (best_id : Nat) (best_name : Str) :
    List Str :=
  let best_base := baseOf best_name
  signals.foldl (fun s sig =>
    if sig.weighted_score < mkRat 40 100 then s
    else
      let cat := sourceCat sig.source
      if sig.chemical_id = best_id then addToSetS cat s
      else if !best_base.isEmpty && 5 ≤ best_base.length then
        (if baseOf sig.chemical_name = best_base then addToSetS cat s else s)
      else s) []

/-- Strong (weighted ≥ 0.50) CAS-sourced and exact-name/synonym-sourced
candidate id sets (phase 4's first loop). -/
def strongCidSets (signals : List Signal) : List Nat × List Nat :=
  signals.foldl (fun (p : List Nat × List Nat) sig =>
    if sig.weighted_score < mkRat 50 100 then p
    else if startsWithL sig.source (str "cas") then (addToSetN sig.chemical_id p.1, p.2)
    else if startsWithL sig.source (str "name_exact") ||
            startsWithL sig.source (str "name_synonym") then
      (p.1, addToSetN sig.chemical_id p.2)
    else p) ([], [])

/-- Strong formula-sourced candidate ids (phase 4's second loop). -/
def strongFormulaCids (signals : List Signal) : List Nat :=
  signals.foldl (fun s sig =>
    if mkRat 50 100 ≤ sig.weighted_score && startsWithL sig.source (str "formula") then
      addToSetN sig.chemical_id s
    else s) []

/-- Phase 3's calibrated confidence: `min(best_score / theoretical_max, 1.0)`
plus the multi-field-agreement bonus `0.12 × (agreeing_categories − 1)`. -/
def fusedConfidence (fi : FuseIn) (signals : List Signal) (best_id : Nat)
    (best_score : ℚ) (best_name : Str) : ℚ :=
  let confidence₀ := min (qdiv best_score (theoreticalMax fi signals)) 1
  let agreeing := agreeingCategories signals best_id best_name
  if 2 ≤ agreeing.length then
    min (qadd confidence₀ (qmul (mkRat 12 100) (mkRat (agreeing.length - 1) 1))) 1
  else confidence₀

/-- Phases 3–6 of `HybridMatcher.match`, entered when `signals` is non-empty.
(The `ranked = []` fallback is unreachable; it returns the same result as the
empty-signal path.) -/
def fuse (c : Caches) (ex : Extractor) (fi : FuseIn) (signals : List Signal)
    (field_swaps : List Str) : MatchResult :=
  let candidate_names := candidateNames signals
  let candidate_scores := candidateScores signals
  let candidate_methods := candidateMethods signals
  let theoretical_max := theoreticalMax fi signals
  let ranked := sortDescByScore candidate_scores
  match ranked with
  | [] => _build_result none none (str "unmatched") 0 (str "UNIDENTIFIED")
      [] signals [] field_swaps
  | best :: _ =>
    let best_id := best.1
    let best_score := best.2
    let best_name := aget best_id [] candidate_names
    let best_method := aget best_id (str "unmatched") candidate_methods
    let confidence₁ := fusedConfidence fi signals best_id best_score best_name
    let strong := strongCidSets signals
    let casNameConflict := !strong.1.isEmpty && !strong.2.isEmpty &&
      interCountN strong.1 strong.2 = 0
    let conflicts₁ : List Str :=
      if casNameConflict then
        [str "CAS points to [" ++
          joinSep (str ", ") (strong.1.map (fun cid => aget cid (str "?") candidate_names)) ++
          str "] but name matches [" ++
          joinSep (str ", ") (strong.2.map (fun cid => aget cid (str "?") candidate_names)) ++
          str "]"]
      else []
    let confidence₂ := if casNameConflict then min confidence₁ (mkRat 80 100) else confidence₁
    let strong_formula := strongFormulaCids signals
    let conflicts₂ := conflicts₁ ++
      (if !strong_formula.isEmpty && !strong.2.isEmpty &&
          interCountN strong_formula strong.2 = 0 then
        [str "Formula and name point to different chemicals"]
      else [])
    let confidence₃ :=
      if !conflicts₂.isEmpty then min confidence₂ (mkRat 84 100) else confidence₂
    let sugPair := (ranked.take 5).foldl
      (fun (p : List Suggestion × List Nat) item =>
        if !p.2.contains item.1 then
          (p.1 ++ [⟨item.1, aget item.1 [] candidate_names,
            pyRound 1 (min (qmul (qdiv item.2 theoretical_max) (mkRat 100 1)) (mkRat 100 1))⟩],
           p.2 ++ [item.1])
        else p) ([], [])
    let suggestions :=
      if sugPair.1.length < 3 && !fi.name.isEmpty then
        (sugPair.1 ++ _fuzzy_suggestions c ex fi.name sugPair.2 3).take 5
      else sugPair.1
    let status :=
      if THRESHOLD_MATCHED ≤ confidence₃ then str "MATCHED"
      else if THRESHOLD_REVIEW ≤ confidence₃ then str "REVIEW_REQUIRED"
      else str "UNIDENTIFIED"
    _build_result (some best_id) (some best_name) best_method confidence₃ status
      suggestions signals conflicts₂ field_swaps

/-- Phase 1: the CAS number found in the name column, if any
(first checksum-valid regex hit). -/
def cas_in_nameOf (cleaned : Cleaned) : Option Str :=
  let name := pyStrip (optStr cleaned.name)
  if !name.isEmpty then (casRegexFindall name).find? _validate_cas_checksum else none

/-- Phase 1: the CAS column treated as a name (non-CAS-shaped text of
length > 3). -/
def name_in_casOf (cleaned : Cleaned) : Option Str :=
  let cas_raw := pyStrip (optStr cleaned.cas)
  if !cas_raw.isEmpty && !casRegexMatchStart cas_raw && 3 < cas_raw.length &&
      !pyIsDigitStr (removeChar ' ' (removeChar '-' cas_raw)) then
    some cas_raw
  else none

/-- Phase 1: the `field_swaps` notes. -/
def fieldSwapsOf (cleaned : Cleaned) : List Str :=
  (match cas_in_nameOf cleaned with
   | some cand => [str "CAS \x27" ++ cand ++ str "\x27 found in name column"]
   | none => []) ++
  (match name_in_casOf cleaned with
   | some n => [str "Name \x27" ++ n ++ str "\x27 found in CAS column"]
   | none => [])

/-- Phase 2's `name_candidates` list (the name field, plus the CAS column
text when it holds a name). -/
def nameCandidatesOf (cleaned : Cleaned) : List Str :=
  (if !(pyStrip (optStr cleaned.name)).isEmpty then [pyStrip (optStr cleaned.name)] else []) ++
  (match name_in_casOf cleaned with | some n => [n] | none => [])

/-- Phase 2: the signals generated from every field of the cleaned row. -/
def genSignals (c : Caches) (ex : Extractor) (cleaned : Cleaned) : List Signal :=
  let cas_raw := pyStrip (optStr cleaned.cas)
  let cas_scanned := pyStrip (optStr cleaned.cas_scanned)
  let formula := pyStrip (optStr cleaned.formula)
  (if !cas_raw.isEmpty && cleaned.cas_valid then
    _signals_from_cas c cas_raw (str "cas_exact") else []) ++
  (if !cas_scanned.isEmpty && cas_scanned ≠ cas_raw then
    _signals_from_cas c cas_scanned (str "cas_scanned") else []) ++
  (match cas_in_nameOf cleaned with
   | some cin => _signals_from_cas c cin (str "cas_from_name")
   | none => []) ++
  (nameCandidatesOf cleaned).flatMap (_signals_from_name c ex) ++
  (if !formula.isEmpty then _signals_from_formula c formula else []) ++
  (match cleaned.un_number with
   | some u => if !u.isEmpty then _signals_from_un c u else []
   | none => [])

/-- The input-presence flags consumed by the theoretical-max block. -/
def fuseInOf (cleaned : Cleaned) : FuseIn :=
  let cas_raw := pyStrip (optStr cleaned.cas)
  let cas_scanned := pyStrip (optStr cleaned.cas_scanned)
  let name := pyStrip (optStr cleaned.name)
  { cas_any := !cas_raw.isEmpty || !cas_scanned.isEmpty || (cas_in_nameOf cleaned).isSome,
    name_any := !name.isEmpty || (name_in_casOf cleaned).isSome,
    formula_any := !(pyStrip (optStr cleaned.formula)).isEmpty,
    un_any := (match cleaned.un_number with | some u => !u.isEmpty | none => false),
    name := name }

/-- `HybridMatcher.match(cleaned)` given built caches (phases 1–2, then
`fuse` for 3–6). -/
def matchRow (c : Caches) (ex : Extractor) (cleaned : Cleaned) : MatchResult :=
  let field_swaps := fieldSwapsOf cleaned
  let signals := genSignals c ex cleaned
  if signals.isEmpty then
    _build_result none none (str "unmatched") 0 (str "UNIDENTIFIED") [] signals [] field_swaps
  else
    fuse c ex (fuseInOf cleaned) signals field_swaps

/-- The stateful entry point: `self._ensure_caches()` then the match, with
the mutated engine returned alongside the result. -/
def HybridMatcher.matchState (m : HybridMatcher) (ex : Extractor) (cleaned : Cleaned) :
    MatchResult × HybridMatcher :=
  let m₁ := _ensure_caches m
  (matchRow m₁.caches ex cleaned, m₁)

/-! ## Concrete scenarios used by witnesses and counterexamples -/

/-- An extractor returning no fuzzy matches at all. -/
def exNone : Extractor := fun _ _ _ => []

/-- Reference store with Acetone (CAS 67-64-1) and Benzene. -/
def dbConf : Database :=
  { chemicals := [⟨1, str "ACETONE", [], []⟩, ⟨2, str "BENZENE", [], []⟩],
    chemical_cas := [⟨str "67-64-1", 1⟩],
    chemical_unna := [] }

/-- A row whose CAS is Acetone's but whose name is exactly `BENZENE`:
a strong CAS signal and a strong exact-name signal on disjoint candidates. -/
def rowConf : Cleaned :=
  { cas := some (str "67-64-1"), cas_valid := true, cas_scanned := none,
    name := some (str "BENZENE"), formula := none, un_number := none }

/-- A scorer behaving like rapidfuzz WRatio on the pair used by the fuzzy
conflict scenario: `benzen` against the name corpus scores `benzene` at 92
(WRatio of this pair is ≈ 92) and `acetone` at 18. -/
def exFuzzy : Extractor := fun q corpus _ =>
  if q = str "benzen" && corpus.contains (str "benzene") then
    [(str "benzene", mkRat 92 1), (str "acetone", mkRat 18 1)]
  else []

/-- A row whose CAS is Acetone's and whose name `benzen` only fuzzy-matches
Benzene (no exact or normalized hit). -/
def rowFuzzyConf : Cleaned :=
  { cas := some (str "67-64-1"), cas_valid := true, cas_scanned := none,
    name := some (str "benzen"), formula := none, un_number := none }

/-- Reference store with a single chemical whose synonym is `DIMETHYL
KETONE` (Acetone). -/
def dbBonus : Database :=
  { chemicals := [⟨1, str "ACETONE", str "DIMETHYL KETONE", []⟩],
    chemical_cas := [], chemical_unna := [] }

/-- A scorer under which the misspelled name `acetoone` fuzzy-matches the
name `acetone` at 70, and the misspelled `dimetil keton!` (sitting in the
CAS column) fuzzy-matches the synonym `dimethyl ketone` at 70. -/
def exBonus : Extractor := fun q corpus _ =>
  if q = str "acetoone" then
    (if corpus.contains (str "acetone") then [(str "acetone", mkRat 70 1)]
     else [(str "dimethyl ketone", mkRat 40 1)])
  else if q = str "dimetil keton!" then
    (if corpus.contains (str "acetone") then [(str "acetone", mkRat 30 1)]
     else [(str "dimethyl ketone", mkRat 70 1)])
  else []

/-- Name `acetoone`, with the misspelled synonym text in the CAS column
(detected as a field swap and fed to the name generators). -/
def rowBonus : Cleaned :=
  { cas := some (str "dimetil keton!"), cas_valid := false, cas_scanned := none,
    name := some (str "acetoone"), formula := none, un_number := none }

/-- Reference store containing `PHOSPHORUS, WHITE` only. -/
def dbWax : Database :=
  { chemicals := [⟨1, str "PHOSPHORUS, WHITE", [], []⟩],
    chemical_cas := [], chemical_unna := [] }

/-- A scorer behaving like rapidfuzz WRatio on the White-Wax pair: the
candidate `phosphorus, white` is fuzzy-similar to the query `white wax`
(WRatio ≈ 86, driven by the shared token `white`). -/
def exWax : Extractor := fun q corpus _ =>
  if q = str "white wax" && corpus.contains (str "phosphorus, white") then
    [(str "phosphorus, white", mkRat 86 1)]
  else []

/-- The claim's scenario: name `White Wax`, no CAS. -/
def rowWax : Cleaned :=
  { cas := none, cas_valid := false, cas_scanned := none,
    name := some (str "White Wax"), formula := none, un_number := none }

/-! ## Claim-side specifications (for the CAS-validator refinement claim) -/

/-- The claim's format property: the string decomposes as 2–7 digits, a
dash, 2 digits, a dash and one digit (the regex `^\d{2,7}-\d{2}-\d$`). -/
def casPatternSpec (l : Str) : Prop :=
  ∃ a b c₃ : Str, l = a ++ '-' :: (b ++ '-' :: c₃) ∧
    2 ≤ a.length ∧ a.length ≤ 7 ∧ (∀ x ∈ a, isDigitChar x = true) ∧
    b.length = 2 ∧ (∀ x ∈ b, isDigitChar x = true) ∧
    c₃.length = 1 ∧ (∀ x ∈ c₃, isDigitChar x = true)

/-- The claim's checksum property: the digits split into a body and a check
digit, and the weighted sum of the body read right-to-left — each digit
multiplied by its 1-based position — is congruent to the check digit
modulo 10. -/
def casChecksumSpec (digits : Str) : Prop :=
  ∃ body chk, digits = body ++ [chk] ∧
    ((body.reverse.enum.map (fun p => (p.1 + 1) * digitVal p.2)).sum) % 10 =
      digitVal chk

/-- Spec-side category of a signal source under the claim reading of the
fusion bonus: four categories CAS, name, formula, UN, with synonym-sourced
signals counting as the name category. -/
def claimCategory (source : Str) : Str :=
  if startsWithL source (str "cas") then str "cas"
  else if startsWithL source (str "name") || startsWithL source (str "synonym") then str "name"
  else if startsWithL source (str "formula") then str "formula"
  else if startsWithL source (str "un") then str "un"
  else sourceCat source

/-- Spec-side agreement set under the claim reading: distinct categories
among CAS, name, formula, UN having a signal of weighted score at least
0.40 on the winning candidate or a same-base-name candidate. -/
def claimAgreeing (signals : List Signal) (best_id : Nat) (best_name : Str) : List Str :=
  let best_base := baseOf best_name
  signals.foldl (fun s sig =>
    if sig.weighted_score < mkRat 40 100 then s
    else
      let cat := claimCategory sig.source
      if sig.chemical_id = best_id then addToSetS cat s
      else if baseOf sig.chemical_name = best_base then addToSetS cat s
      else s) []

/-- Spec-side confidence under the claim reading: the bonus requires at
least two of the four categories to agree. -/
def claimConfidence (fi : FuseIn) (signals : List Signal) (best_id : Nat)
    (best_score : ℚ) (best_name : Str) : ℚ :=
  let confidence₀ := min (qdiv best_score (theoreticalMax fi signals)) 1
  let agreeing := claimAgreeing signals best_id best_name
  if 2 ≤ agreeing.length then
    min (qadd confidence₀ (qmul (mkRat 12 100) (mkRat (agreeing.length - 1) 1))) 1
  else confidence₀

/-- The signals generated for the bonus scenario. -/
def bonusSigs : List Signal := genSignals (buildCaches dbBonus) exBonus rowBonus

/-- The loop body of the `agreeing_categories` accumulation, with
`best_base` expanded to `baseOf best_name`. -/
def agreeStep (best_id : Nat) (best_name : Str) (s : List Str) (sig : Signal) : List Str :=
  if sig.weighted_score < mkRat 40 100 then s
  else
    let cat := sourceCat sig.source
    if sig.chemical_id = best_id then addToSetS cat s
    else if !(baseOf best_name).isEmpty && 5 ≤ (baseOf best_name).length then
      (if baseOf sig.chemical_name = baseOf best_name then addToSetS cat s else s)
    else s

/-- Invariant of the `candidate_best_per_type` aggregation fold: candidate
keys are distinct, every retained entry comes from a processed signal whose
id and source tag match its position, and every processed signal is
dominated by the retained signal of its id and source tag. -/
def AggInv (processed : List Signal) (m : List (Nat × List (Str × Signal))) : Prop :=
  (m.map (fun p => p.1)).Nodup ∧
  (∀ p ∈ m, ∀ q ∈ p.2, q.2 ∈ processed ∧ q.2.chemical_id = p.1 ∧ q.2.source = q.1) ∧
  (∀ s ∈ processed, ∃ tm, alookup s.chemical_id m = some tm ∧
    ∃ kept, alookup s.source tm = some kept ∧ s.weighted_score ≤ kept.weighted_score)

/-- An entry points at a loaded chemical record. -/
def EntryOk (db : Database) (e : Entry) : Prop :=
  e.id ∈ db.chemicals.map (fun ch => ch.id)

/-- Every entry stored in any cache map points at a loaded chemical record. -/
structure CachesOk (db : Database) (c : Caches) : Prop where
  cas : ∀ p ∈ c.cas_map, ∀ e ∈ p.2, EntryOk db e
  name : ∀ p ∈ c.name_map, EntryOk db p.2
  norm : ∀ p ∈ c.norm_map, EntryOk db p.2
  syn : ∀ p ∈ c.synonym_map, ∀ e ∈ p.2, EntryOk db e
  formula : ∀ p ∈ c.formula_map, ∀ e ∈ p.2, EntryOk db e
  un : ∀ p ∈ c.un_map, ∀ e ∈ p.2, EntryOk db e
  fname : ∀ p ∈ c.fuzzy_name_to_entry, EntryOk db p.2
  fsyn : ∀ p ∈ c.fuzzy_syn_to_entry, EntryOk db p.2

/-- The name-family source predicate. -/
def NameFamily (sig : Signal) : Prop :=
  sig.source = str "name_exact" ∨ sig.source = str "name_synonym" ∨
  sig.source = str "name_normalized" ∨ sig.source = str "name_fuzzy" ∨
  sig.source = str "synonym_fuzzy"

/-! ## General lemmas about the numeric model -/

theorem qadd_eq (a b : ℚ) : qadd a b = a + b := by
  rw [qadd, Rat.mkRat_eq_divInt, Nat.cast_mul]
  conv_rhs => rw [← Rat.num_divInt_den a, ← Rat.num_divInt_den b]
  rw [Rat.divInt_add_divInt _ _ (by exact_mod_cast a.den_nz) (by exact_mod_cast b.den_nz)]

theorem qsub_eq (a b : ℚ) : qsub a b = a - b := by
  rw [qsub, Rat.mkRat_eq_divInt, Nat.cast_mul]
  conv_rhs => rw [← Rat.num_divInt_den a, ← Rat.num_divInt_den b]
  rw [Rat.divInt_sub_divInt _ _ (by exact_mod_cast a.den_nz) (by exact_mod_cast b.den_nz)]

theorem qmul_eq (a b : ℚ) : qmul a b = a * b := by
  rw [qmul, Rat.mkRat_eq_divInt, Nat.cast_mul]
  conv_rhs => rw [← Rat.num_divInt_den a, ← Rat.num_divInt_den b]
  rw [Rat.divInt_mul_divInt']

theorem qdiv_eq (a b : ℚ) : qdiv a b = a / b := by
  have hrhs : a / b = Rat.divInt (a.num * b.den) ((a.den : ℤ) * b.num) := by
    conv_lhs => rw [← Rat.num_divInt_den a, ← Rat.num_divInt_den b]
    rw [Rat.divInt_div_divInt]
  by_cases hb : 0 ≤ b.num
  · rw [qdiv, if_pos hb, Rat.mkRat_eq_divInt, Nat.cast_mul,
      Int.toNat_of_nonneg hb, hrhs]
  · rw [qdiv, if_neg hb, Rat.mkRat_eq_divInt, Nat.cast_mul,
      Int.toNat_of_nonneg (by omega : (0 : ℤ) ≤ -b.num), hrhs]
    rw [show ((a.den : ℤ) * -b.num) = -((a.den : ℤ) * b.num) by ring,
      Rat.divInt_neg, Int.neg_neg]


theorem mkRat_q (n : ℤ) (d : ℕ) : mkRat n d = (n : ℚ) / (d : ℚ) := by
  rw [Rat.mkRat_eq_divInt, Rat.divInt_eq_div]
  norm_num

theorem roundEven_le {x : ℚ} {m : ℤ} (h : x ≤ (m : ℚ)) : roundEven x ≤ m := by
  have hfm : ⌊x⌋ ≤ m := by
    have h₁ := Int.floor_mono h
    simpa using h₁
  have hfl : (⌊x⌋ : ℚ) ≤ x := Int.floor_le x
  have hhalf : (mkRat 1 2 : ℚ) = 1 / 2 := by
    rw [mkRat_q]; norm_num
  have hplus : (1 : ℚ) / 2 ≤ x - ⌊x⌋ → ⌊x⌋ + 1 ≤ m := by
    intro hfr
    by_contra hc
    push_neg at hc
    have hm : m ≤ ⌊x⌋ := by omega
    have hmq : (m : ℚ) ≤ (⌊x⌋ : ℚ) := by exact_mod_cast hm
    linarith
  simp only [roundEven, qsub_eq, hhalf]
  split_ifs with h₁ h₂ h₃
  · exact hfm
  · exact hplus (le_of_lt h₂)
  · exact hfm
  · exact hplus (le_of_not_lt h₁)

theorem pow10_pos (k : Nat) : (0 : ℚ) < pow10 k := by
  rw [pow10, Rat.mkRat_eq_divInt, Rat.divInt_eq_div]
  norm_num

theorem pyRound_le (k : Nat) (x b : ℚ) (m : ℤ) (hb : b * pow10 k = (m : ℚ))
    (h : x ≤ b) : pyRound k x ≤ b := by
  have hp := pow10_pos k
  have hxm : qmul x (pow10 k) ≤ (m : ℚ) := by
    rw [qmul_eq, ← hb]
    exact mul_le_mul_of_nonneg_right h (le_of_lt hp)
  have hr : (roundEven (qmul x (pow10 k)) : ℚ) ≤ (m : ℚ) := by
    exact_mod_cast roundEven_le hxm
  rw [pyRound, qdiv_eq]
  calc (roundEven (qmul x (pow10 k)) : ℚ) / pow10 k
      ≤ (m : ℚ) / pow10 k := by
        exact (div_le_div_iff_of_pos_right hp).mpr hr
    _ = b := by rw [← hb, mul_div_cancel_right₀ _ (ne_of_gt hp)]

theorem pyRound4_zero : pyRound 4 0 = 0 := by decide

theorem pyRound4_le_84 {x : ℚ} (h : x ≤ mkRat 84 100) : pyRound 4 x ≤ mkRat 84 100 := by
  refine pyRound_le 4 x (mkRat 84 100) 8400 ?_ h
  rw [mkRat_q, pow10, Rat.mkRat_eq_divInt, Rat.divInt_eq_div]
  norm_num

/-! ## Projections of `_build_result` -/

theorem build_chemical_id (i n me co st su si cf fs) :
    (_build_result i n me co st su si cf fs).chemical_id = i := rfl

theorem build_chemical_name (i n me co st su si cf fs) :
    (_build_result i n me co st su si cf fs).chemical_name = n := rfl

theorem build_match_method (i n me co st su si cf fs) :
    (_build_result i n me co st su si cf fs).match_method = me := rfl

theorem build_confidence (i n me co st su si cf fs) :
    (_build_result i n me co st su si cf fs).confidence = pyRound 4 co := rfl

theorem build_match_status (i n me co st su si cf fs) :
    (_build_result i n me co st su si cf fs).match_status = st := rfl

theorem build_conflicts (i n me co st su si cf fs) :
    (_build_result i n me co st su si cf fs).conflicts = cf := rfl

/-! ## Conflict cap (claim C5) -/

/-- The conflict-cap/status tail of `fuse`, abstracted over the computed
pre-cap confidence and conflict list. -/
theorem fuse_tail_cap (conf₂ : ℚ) (cfl : List Str) :
    cfl = [] ∨
      (pyRound 4 (if !cfl.isEmpty then min conf₂ (mkRat 84 100) else conf₂) ≤ mkRat 84 100 ∧
       (if THRESHOLD_MATCHED ≤ (if !cfl.isEmpty then min conf₂ (mkRat 84 100) else conf₂) then
          str "MATCHED"
        else if THRESHOLD_REVIEW ≤ (if !cfl.isEmpty then min conf₂ (mkRat 84 100) else conf₂) then
          str "REVIEW_REQUIRED"
        else str "UNIDENTIFIED") ≠ str "MATCHED") := by
  by_cases hc : cfl = []
  · exact Or.inl hc
  · right
    have hne : cfl.isEmpty = false := by
      cases cfl with
      | nil => exact absurd rfl hc
      | cons a t => rfl
    rw [hne]
    simp only [Bool.not_false, if_true]
    constructor
    · exact pyRound4_le_84 (min_le_right _ _)
    · have hlt : min conf₂ (mkRat 84 100) < THRESHOLD_MATCHED := by
        have h84 : (mkRat 84 100 : ℚ) < THRESHOLD_MATCHED := by
          rw [THRESHOLD_MATCHED, mkRat_q, mkRat_q]; norm_num
        exact lt_of_le_of_lt (min_le_right _ _) h84
      rw [if_neg (not_le_of_lt hlt)]
      split_ifs
      · decide
      · decide

/-- Any `fuse` result either has no conflicts, or its confidence is capped
at 0.84 and its status is not `MATCHED`. -/
theorem fuse_conflict_cap (c : Caches) (ex : Extractor) (fi : FuseIn)
    (signals : List Signal) (fs : List Str) :
    (fuse c ex fi signals fs).conflicts = [] ∨
      ((fuse c ex fi signals fs).confidence ≤ mkRat 84 100 ∧
       (fuse c ex fi signals fs).match_status ≠ str "MATCHED") := by
  simp only [fuse]
  split
  · left
    rw [build_conflicts]
  · rw [build_conflicts, build_confidence, build_match_status]
    exact fuse_tail_cap _ _

/-- Claim C5: a result with recorded conflicts has confidence at most 0.84
and is never `MATCHED`. -/
theorem conflict_cap (c : Caches) (ex : Extractor) (cleaned : Cleaned)
    (h : (matchRow c ex cleaned).conflicts ≠ []) :
    (matchRow c ex cleaned).confidence ≤ mkRat 84 100 ∧
    (matchRow c ex cleaned).match_status ≠ str "MATCHED" := by
  simp only [matchRow] at *
  by_cases hs : (genSignals c ex cleaned).isEmpty = true
  · rw [if_pos hs] at h
    rw [build_conflicts] at h
    exact absurd rfl h
  · rw [if_neg hs] at h ⊢
    rcases fuse_conflict_cap c ex (fuseInOf cleaned) (genSignals c ex cleaned)
      (fieldSwapsOf cleaned) with hnil | hcap
    · exact absurd hnil h
    · exact hcap

/-! ## Identity invariants of the result shape (claim C10) -/

theorem fuse_ids (c : Caches) (ex : Extractor) (fi : FuseIn)
    (signals : List Signal) (fs : List Str) :
    ((fuse c ex fi signals fs).chemical_id = none ∧
     (fuse c ex fi signals fs).chemical_name = none ∧
     (fuse c ex fi signals fs).match_status = str "UNIDENTIFIED" ∧
     (fuse c ex fi signals fs).match_method = str "unmatched" ∧
     (fuse c ex fi signals fs).confidence = 0) ∨
    (∃ k nm, (fuse c ex fi signals fs).chemical_id = some k ∧
      (fuse c ex fi signals fs).chemical_name = some nm) := by
  simp only [fuse]
  split
  · left
    refine ⟨rfl, rfl, rfl, rfl, ?_⟩
    rw [build_confidence]
    exact pyRound4_zero
  · right
    exact ⟨_, _, rfl, rfl⟩

/-- Claim C10: a result is either the no-signal outcome (`chemical_id` and
`chemical_name` both `None`, status `UNIDENTIFIED`, method `unmatched`,
confidence 0.0) or carries a present `chemical_id` and `chemical_name`; in
particular `MATCHED`/`REVIEW_REQUIRED` results always name a chemical. -/
theorem result_id_shape (c : Caches) (ex : Extractor) (cleaned : Cleaned) :
    ((matchRow c ex cleaned).chemical_id = none ∧
     (matchRow c ex cleaned).chemical_name = none ∧
     (matchRow c ex cleaned).match_status = str "UNIDENTIFIED" ∧
     (matchRow c ex cleaned).match_method = str "unmatched" ∧
     (matchRow c ex cleaned).confidence = 0) ∨
    (∃ k nm, (matchRow c ex cleaned).chemical_id = some k ∧
      (matchRow c ex cleaned).chemical_name = some nm) := by
  simp only [matchRow]
  by_cases hs : (genSignals c ex cleaned).isEmpty = true
  · rw [if_pos hs]
    left
    refine ⟨rfl, rfl, rfl, rfl, ?_⟩
    rw [build_confidence]
    exact pyRound4_zero
  · rw [if_neg hs]
    exact fuse_ids c ex (fuseInOf cleaned) (genSignals c ex cleaned) (fieldSwapsOf cleaned)

/-! ## Determinism (claim C8) -/

theorem ensure_caches_idem (m : HybridMatcher) :
    _ensure_caches (_ensure_caches m) = _ensure_caches m := by
  by_cases h : m.loaded = true
  · simp [_ensure_caches, h]
  · simp [_ensure_caches, h]

/-- Claim C8: resolution is deterministic — matching the same cleaned row a
second time against the engine returned by the first call yields the identical
`MatchResult` (and leaves the engine unchanged). -/
theorem resolve_deterministic (m : HybridMatcher) (ex : Extractor) (cleaned : Cleaned) :
    (HybridMatcher.matchState ((HybridMatcher.matchState m ex cleaned).2) ex cleaned).1 =
      (HybridMatcher.matchState m ex cleaned).1 ∧
    (HybridMatcher.matchState ((HybridMatcher.matchState m ex cleaned).2) ex cleaned).2 =
      (HybridMatcher.matchState m ex cleaned).2 := by
  simp only [HybridMatcher.matchState]
  constructor
  · rw [ensure_caches_idem]
  · exact ensure_caches_idem m

/-- Witness for the conflict cap: the `rowConf` scenario records a conflict
and the capped conclusions hold there. -/
theorem conflict_cap_witness :
    (matchRow (buildCaches dbConf) exNone rowConf).conflicts ≠ [] ∧
    ((matchRow (buildCaches dbConf) exNone rowConf).confidence ≤ mkRat 84 100 ∧
     (matchRow (buildCaches dbConf) exNone rowConf).match_status ≠ str "MATCHED") :=
  ⟨by decide, conflict_cap (buildCaches dbConf) exNone rowConf (by decide)⟩

/-! ## Conflict detection (claim C6) -/

theorem ne_nil_isEmpty_false {α : Type} {l : List α} (h : l ≠ []) : l.isEmpty = false := by
  cases l with
  | nil => exact absurd rfl h
  | cons a t => rfl

theorem insertByScoreDesc_ne_nil (p : Nat × ℚ) (l : List (Nat × ℚ)) :
    insertByScoreDesc p l ≠ [] := by
  cases l with
  | nil => simp [insertByScoreDesc]
  | cons x t =>
    simp only [insertByScoreDesc]
    split <;> simp

theorem foldl_insert_ne_nil (t : List (Nat × ℚ)) (m : List (Nat × ℚ)) (hm : m ≠ []) :
    t.foldl (fun acc p => insertByScoreDesc p acc) m ≠ [] := by
  induction t generalizing m with
  | nil => exact hm
  | cons p t ih => exact ih _ (insertByScoreDesc_ne_nil p m)

theorem sortDescByScore_ne_nil {l : List (Nat × ℚ)} (h : l ≠ []) :
    sortDescByScore l ≠ [] := by
  cases l with
  | nil => exact absurd rfl h
  | cons p t =>
    simp only [sortDescByScore, List.foldl_cons]
    exact foldl_insert_ne_nil t _ (insertByScoreDesc_ne_nil p [])

theorem aggStep_ne_nil (m : List (Nat × List (Str × Signal))) (sig : Signal) :
    aggStep m sig ≠ [] := by
  cases m with
  | nil => simp [aggStep]
  | cons a t =>
    simp only [aggStep]
    split <;> simp

theorem foldl_aggStep_ne_nil (t : List Signal) (m : List (Nat × List (Str × Signal)))
    (hm : m ≠ []) : t.foldl aggStep m ≠ [] := by
  induction t generalizing m with
  | nil => exact hm
  | cons s t ih => exact ih _ (aggStep_ne_nil m s)

theorem candidateBestPerType_ne_nil {signals : List Signal} (h : signals ≠ []) :
    candidateBestPerType signals ≠ [] := by
  cases signals with
  | nil => exact absurd rfl h
  | cons s t =>
    simp only [candidateBestPerType, List.foldl_cons]
    exact foldl_aggStep_ne_nil t _ (aggStep_ne_nil [] s)

theorem candidateScores_ne_nil {signals : List Signal} (h : signals ≠ []) :
    candidateScores signals ≠ [] := by
  simp only [candidateScores]
  intro hmap
  exact candidateBestPerType_ne_nil h (List.map_eq_nil_iff.mp hmap)

/-- When strong CAS-sourced and strong exact-name/synonym-sourced candidate
sets are non-empty and disjoint, `fuse` records a conflict. -/
theorem fuse_strong_conflict (c : Caches) (ex : Extractor) (fi : FuseIn)
    (signals : List Signal) (fs : List Str)
    (h1 : (strongCidSets signals).1 ≠ []) (h2 : (strongCidSets signals).2 ≠ [])
    (h0 : interCountN (strongCidSets signals).1 (strongCidSets signals).2 = 0) :
    (fuse c ex fi signals fs).conflicts ≠ [] := by
  have hsig : signals ≠ [] := by
    intro hnil
    apply h1
    rw [hnil]
    rfl
  simp only [fuse]
  split
  · rename_i heq
    exact absurd heq (sortDescByScore_ne_nil (candidateScores_ne_nil hsig))
  · rw [build_conflicts]
    have hc : (!(strongCidSets signals).1.isEmpty && !(strongCidSets signals).2.isEmpty &&
        decide (interCountN (strongCidSets signals).1 (strongCidSets signals).2 = 0)) = true := by
      rw [ne_nil_isEmpty_false h1, ne_nil_isEmpty_false h2]
      simp [h0]
    rw [if_pos hc]
    simp

/-- Claim C6 as amended: a conflict is recorded — and the row is capped below
`MATCHED` — when the strong (weighted ≥ 0.50) CAS-sourced candidates and the
strong exact-name/exact-synonym-sourced candidates are non-empty and
disjoint.  (A name that merely fuzzy-matches records no conflict.) -/
theorem conflict_detection_amended (c : Caches) (ex : Extractor) (cleaned : Cleaned)
    (h1 : (strongCidSets (genSignals c ex cleaned)).1 ≠ [])
    (h2 : (strongCidSets (genSignals c ex cleaned)).2 ≠ [])
    (h0 : interCountN (strongCidSets (genSignals c ex cleaned)).1
      (strongCidSets (genSignals c ex cleaned)).2 = 0) :
    (matchRow c ex cleaned).conflicts ≠ [] ∧
    (matchRow c ex cleaned).confidence ≤ mkRat 84 100 ∧
    (matchRow c ex cleaned).match_status ≠ str "MATCHED" := by
  have hsig : genSignals c ex cleaned ≠ [] := by
    intro hnil
    apply h1
    rw [hnil]
    rfl
  have hcfl := fuse_strong_conflict c ex (fuseInOf cleaned) (genSignals c ex cleaned)
    (fieldSwapsOf cleaned) h1 h2 h0
  have hcap := fuse_conflict_cap c ex (fuseInOf cleaned) (genSignals c ex cleaned)
    (fieldSwapsOf cleaned)
  simp only [matchRow]
  rw [if_neg (by rw [ne_nil_isEmpty_false hsig]; simp)]
  rcases hcap with hnil | hcap
  · exact absurd hnil hcfl
  · exact ⟨hcfl, hcap⟩

/-- Witness for the amended conflict-detection claim at the `rowConf`
scenario (CAS ⇒ Acetone, exact name ⇒ Benzene). -/
theorem conflict_detection_amended_witness :
    ((strongCidSets (genSignals (buildCaches dbConf) exNone rowConf)).1 ≠ [] ∧
     (strongCidSets (genSignals (buildCaches dbConf) exNone rowConf)).2 ≠ [] ∧
     interCountN (strongCidSets (genSignals (buildCaches dbConf) exNone rowConf)).1
       (strongCidSets (genSignals (buildCaches dbConf) exNone rowConf)).2 = 0) ∧
    ((matchRow (buildCaches dbConf) exNone rowConf).conflicts ≠ [] ∧
     (matchRow (buildCaches dbConf) exNone rowConf).confidence ≤ mkRat 84 100 ∧
     (matchRow (buildCaches dbConf) exNone rowConf).match_status ≠ str "MATCHED") :=
  ⟨⟨by decide, by decide, by decide⟩,
   conflict_detection_amended (buildCaches dbConf) exNone rowConf
     (by decide) (by decide) (by decide)⟩

/-- Counterexample to claim C6 as stated: in the `rowFuzzyConf` scenario the
CAS field points strongly (weighted 100) to chemical 1 while the name field
fuzzy-matches the disjoint chemical 2 strongly (weighted 64.4 ≥ 50), yet the
result has an empty `conflicts` list and status `UNIDENTIFIED`, not
`REVIEW_REQUIRED`. -/
theorem fuzzy_conflict_counterexample :
    (∃ s ∈ (matchRow (buildCaches dbConf) exFuzzy rowFuzzyConf).signals,
      s.source = str "cas_exact" ∧ s.chemical_id = 1 ∧ mkRat 50 1 ≤ s.weighted) ∧
    (∃ s ∈ (matchRow (buildCaches dbConf) exFuzzy rowFuzzyConf).signals,
      s.source = str "name_fuzzy" ∧ s.chemical_id = 2 ∧ mkRat 50 1 ≤ s.weighted) ∧
    (matchRow (buildCaches dbConf) exFuzzy rowFuzzyConf).conflicts = [] ∧
    (matchRow (buildCaches dbConf) exFuzzy rowFuzzyConf).match_status =
      str "UNIDENTIFIED" ∧
    (matchRow (buildCaches dbConf) exFuzzy rowFuzzyConf).confidence = mkRat 5263 10000 := by
  refine ⟨?_, ?_, by decide, by decide, by decide⟩
  · decide
  · decide

/-! ## The safety veto and the White-Wax scenario (claim C2) -/

/-- Claim C2's scenario, evaluated on the code.  The safety-veto engine
itself (`semantic_score`) does veto `White Wax` against `PHOSPHORUS, WHITE`
with score 0 and a reason mentioning "safety" and "hazard" — but
`HybridMatcher.match` never invokes it: resolving the row returns the
hazardous candidate with status `REVIEW_REQUIRED`, confidence 0.6689, no
conflict entry and no veto, contradicting the claimed `UNIDENTIFIED`/0.0
outcome.  (`match.py` does not import `semantics`; the veto engine is
exercised only by its own tests.) -/
theorem white_wax_veto_not_wired :
    (semantic_score (str "White Wax") (str "PHOSPHORUS, WHITE")).vetoed = true ∧
    (semantic_score (str "White Wax") (str "PHOSPHORUS, WHITE")).score = 0 ∧
    hasSub (str "safety") (pyLower
      ((semantic_score (str "White Wax") (str "PHOSPHORUS, WHITE")).veto_reason.getD [])) =
      true ∧
    hasSub (str "hazard") (pyLower
      ((semantic_score (str "White Wax") (str "PHOSPHORUS, WHITE")).veto_reason.getD [])) =
      true ∧
    (matchRow (buildCaches dbWax) exWax rowWax).chemical_id = some 1 ∧
    (matchRow (buildCaches dbWax) exWax rowWax).chemical_name =
      some (str "PHOSPHORUS, WHITE") ∧
    (matchRow (buildCaches dbWax) exWax rowWax).match_status = str "REVIEW_REQUIRED" ∧
    (matchRow (buildCaches dbWax) exWax rowWax).confidence = mkRat 6689 10000 ∧
    (matchRow (buildCaches dbWax) exWax rowWax).conflicts = [] := by
  refine ⟨by decide, by decide, by decide, by decide, by decide, by decide, by decide,
    by decide, by decide⟩

/-! ## Totality over missing/malformed fields (claim C9) -/

theorem foldl_state_preserve {σ α : Type} (P : σ → Prop) (f : σ → α → σ)
    (l : List α) (init : σ) (h0 : P init) (hf : ∀ st a, P st → P (f st a)) :
    P (l.foldl f init) := by
  induction l generalizing init with
  | nil => exact h0
  | cons a t ih => exact ih _ (hf init a h0)

theorem mem_signals_from_cas {c : Caches} {cas src : Str} {sig : Signal}
    (h : sig ∈ _signals_from_cas c cas src) : sig.source = src := by
  simp only [_signals_from_cas] at h
  split at h
  · exact absurd h (List.not_mem_nil sig)
  · rw [List.mem_map] at h
    obtain ⟨p, _, rfl⟩ := h
    rfl

theorem mem_signals_from_formula {c : Caches} {f : Str} {sig : Signal}
    (h : sig ∈ _signals_from_formula c f) : sig.source = str "formula_exact" := by
  simp only [_signals_from_formula] at h
  rw [List.mem_map] at h
  obtain ⟨p, _, rfl⟩ := h
  rfl

theorem mem_signals_from_un {c : Caches} {u : Str} {sig : Signal}
    (h : sig ∈ _signals_from_un c u) : sig.source = str "un_exact" := by
  simp only [_signals_from_un] at h
  split at h
  · exact absurd h (List.not_mem_nil sig)
  · split at h
    · exact absurd h (List.not_mem_nil sig)
    · rw [List.mem_map] at h
      obtain ⟨p, _, rfl⟩ := h
      rfl

theorem signals_from_un_malformed {c : Caches} {u : Str} (h : pyInt u = none) :
    _signals_from_un c u = [] := by
  simp [_signals_from_un, h]

theorem mem_exactNameSignals {c : Caches} {n : Str} {sig : Signal}
    (h : sig ∈ exactNameSignals c n) : NameFamily sig := by
  simp only [exactNameSignals] at h
  have base : ∀ s ∈ (match alookup (pyStrip (pyUpper n)) c.name_map with
      | some hit => [(⟨hit.id, hit.name, str "name_exact", 1, weightOf "name_exact",
          str "Exact name match: \x27" ++ n ++ str "\x27"⟩ : Signal)]
      | none => []) ++ (aget (pyStrip (pyUpper n)) [] c.synonym_map).map (fun sh =>
        (⟨sh.id, sh.name, str "name_synonym", 1, weightOf "name_synonym",
          str "Exact synonym match: \x27" ++ n ++ str "\x27 → " ++ sh.name⟩ : Signal)),
      NameFamily s := by
    intro s hs
    rw [List.mem_append] at hs
    rcases hs with hs | hs
    · split at hs
      · rw [List.mem_singleton] at hs
        subst hs
        exact Or.inl rfl
      · exact absurd hs (List.not_mem_nil s)
    · rw [List.mem_map] at hs
      obtain ⟨sh, _, rfl⟩ := hs
      exact Or.inr (Or.inl rfl)
  split at h
  · split at h
    · split at h
      · rw [List.mem_append] at h
        rcases h with h | h
        · exact base sig h
        · rw [List.mem_singleton] at h
          subst h
          exact Or.inr (Or.inr (Or.inl rfl))
      · exact base sig h
    · exact base sig h
  · exact base sig h

theorem fuzzyNameStep_preserve {c : Caches} {n : Str}
    (st : List Signal × List Nat) (m : Str × ℚ)
    (h : ∀ s ∈ st.1, NameFamily s) : ∀ s ∈ (fuzzyNameStep c n st m).1, NameFamily s := by
  intro s hs
  simp only [fuzzyNameStep] at hs
  split at hs
  · split at hs
    · rw [List.mem_append] at hs
      rcases hs with hs | hs
      · exact h s hs
      · rw [List.mem_singleton] at hs
        subst hs
        exact Or.inr (Or.inr (Or.inr (Or.inl rfl)))
    · exact h s hs
  · exact h s hs

theorem fuzzySynStep_preserve {c : Caches} {n : Str}
    (st : List Signal × List Nat) (m : Str × ℚ)
    (h : ∀ s ∈ st.1, NameFamily s) : ∀ s ∈ (fuzzySynStep c n st m).1, NameFamily s := by
  intro s hs
  simp only [fuzzySynStep] at hs
  split at hs
  · split at hs
    · rw [List.mem_append] at hs
      rcases hs with hs | hs
      · exact h s hs
      · rw [List.mem_singleton] at hs
        subst hs
        exact Or.inr (Or.inr (Or.inr (Or.inr rfl)))
    · exact h s hs
  · exact h s hs

theorem mem_signals_from_name {c : Caches} {ex : Extractor} {n : Str} {sig : Signal}
    (h : sig ∈ _signals_from_name c ex n) : NameFamily sig := by
  simp only [_signals_from_name] at h
  refine (foldl_state_preserve (fun st => ∀ s ∈ st.1, NameFamily s) (fuzzySynStep c n) _ _
    ?_ (fun st a hst => fuzzySynStep_preserve st a hst)) sig h
  refine foldl_state_preserve (fun st => ∀ s ∈ st.1, NameFamily s) (fuzzyNameStep c n) _ _
    ?_ (fun st a hst => fuzzyNameStep_preserve st a hst)
  intro s hs
  exact mem_exactNameSignals hs

theorem build_signals (i n me co st su si cf fs) :
    (_build_result i n me co st su si cf fs).signals = si.map Signal.to_dict := rfl

theorem fuse_signals (c : Caches) (ex : Extractor) (fi : FuseIn)
    (signals : List Signal) (fs : List Str) :
    (fuse c ex fi signals fs).signals = signals.map Signal.to_dict := by
  simp only [fuse]
  split
  · rw [build_signals]
  · rw [build_signals]

/-- The diagnostic `signals` of a result are exactly the generated signals. -/
theorem matchRow_signals (c : Caches) (ex : Extractor) (cleaned : Cleaned) :
    (matchRow c ex cleaned).signals = (genSignals c ex cleaned).map Signal.to_dict := by
  simp only [matchRow]
  by_cases hs : (genSignals c ex cleaned).isEmpty = true
  · rw [if_pos hs, build_signals]
  · rw [if_neg hs, fuse_signals]

theorem mem_of_ite_nil {α : Type} {x : α} {c : Prop} [Decidable c] {l : List α}
    (h : x ∈ (if c then l else [])) : x ∈ l := by
  split at h
  · exact h
  · exact absurd h (List.not_mem_nil x)

/-- Split a generated signal into its six per-field segments. -/
theorem mem_genSignals_cases {c : Caches} {ex : Extractor} {cleaned : Cleaned}
    {sig : Signal} (h : sig ∈ genSignals c ex cleaned) :
    ((((sig ∈ (if (!(pyStrip (optStr cleaned.cas)).isEmpty && cleaned.cas_valid) = true then
        _signals_from_cas c (pyStrip (optStr cleaned.cas)) (str "cas_exact") else []) ∨
    sig ∈ (if (!(pyStrip (optStr cleaned.cas_scanned)).isEmpty &&
          pyStrip (optStr cleaned.cas_scanned) ≠ pyStrip (optStr cleaned.cas)) = true then
        _signals_from_cas c (pyStrip (optStr cleaned.cas_scanned)) (str "cas_scanned") else [])) ∨
    sig ∈ (match cas_in_nameOf cleaned with
        | some cin => _signals_from_cas c cin (str "cas_from_name")
        | none => [])) ∨
    (∃ n ∈ nameCandidatesOf cleaned, sig ∈ _signals_from_name c ex n)) ∨
    sig ∈ (if (!(pyStrip (optStr cleaned.formula)).isEmpty) = true then
        _signals_from_formula c (pyStrip (optStr cleaned.formula)) else [])) ∨
    sig ∈ (match cleaned.un_number with
        | some u => if (!u.isEmpty) = true then _signals_from_un c u else []
        | none => []) := by
  simp only [genSignals, List.mem_append, List.mem_flatMap] at h
  exact h

/-- Claim C9: the resolver is a total function of the cleaned row (this
embedding returns a `MatchResult` for every input by construction — no code
path raises), and a missing or malformed field contributes no signals from
its generator: no `cas_exact` signal without a non-empty validated CAS, no
`cas_scanned` signal without a scanned CAS, no UN signal when `un_number` is
absent or non-numeric, no formula signal when `formula` is empty, and no
name-family signal when both `name` and the CAS column are empty. -/
theorem missing_fields_no_signals (c : Caches) (ex : Extractor) (cleaned : Cleaned) :
    ((∀ u, cleaned.un_number = some u → pyInt u = none) →
      ∀ d ∈ (matchRow c ex cleaned).signals, d.source ≠ str "un_exact") ∧
    (pyStrip (optStr cleaned.formula) = [] →
      ∀ d ∈ (matchRow c ex cleaned).signals, d.source ≠ str "formula_exact") ∧
    ((pyStrip (optStr cleaned.cas) = [] ∨ cleaned.cas_valid = false) →
      ∀ d ∈ (matchRow c ex cleaned).signals, d.source ≠ str "cas_exact") ∧
    (pyStrip (optStr cleaned.cas_scanned) = [] →
      ∀ d ∈ (matchRow c ex cleaned).signals, d.source ≠ str "cas_scanned") ∧
    (pyStrip (optStr cleaned.name) = [] → pyStrip (optStr cleaned.cas) = [] →
      ∀ d ∈ (matchRow c ex cleaned).signals,
        d.source ≠ str "name_exact" ∧ d.source ≠ str "name_synonym" ∧
        d.source ≠ str "name_normalized" ∧ d.source ≠ str "name_fuzzy" ∧
        d.source ≠ str "synonym_fuzzy") := by
  have hmem : ∀ d ∈ (matchRow c ex cleaned).signals,
      ∃ sig ∈ genSignals c ex cleaned, d = Signal.to_dict sig := by
    intro d hd
    rw [matchRow_signals, List.mem_map] at hd
    obtain ⟨sig, hs, rfl⟩ := hd
    exact ⟨sig, hs, rfl⟩
  refine ⟨?_, ?_, ?_, ?_, ?_⟩
  -- (1) no UN signals when un_number is absent or malformed
  · intro hyp d hd
    obtain ⟨sig, hsig, rfl⟩ := hmem d hd
    show sig.source ≠ str "un_exact"
    rcases mem_genSignals_cases hsig with ((((h | h) | h) | ⟨n, _, h⟩) | h) | h
    · rw [mem_signals_from_cas (mem_of_ite_nil h)]; decide
    · rw [mem_signals_from_cas (mem_of_ite_nil h)]; decide
    · cases hcin : cas_in_nameOf cleaned with
      | none =>
        simp only [hcin] at h
        exact absurd h (List.not_mem_nil sig)
      | some cin =>
        simp only [hcin] at h
        rw [mem_signals_from_cas h]; decide
    · rcases mem_signals_from_name h with h5 | h5 | h5 | h5 | h5 <;>
        (rw [h5]; decide)
    · rw [mem_signals_from_formula (mem_of_ite_nil h)]; decide
    · cases hun : cleaned.un_number with
      | none =>
        simp only [hun] at h
        exact absurd h (List.not_mem_nil sig)
      | some u =>
        simp only [hun] at h
        have h₁ := mem_of_ite_nil h
        rw [signals_from_un_malformed (hyp u hun)] at h₁
        exact absurd h₁ (List.not_mem_nil sig)
  -- (2) no formula signals when formula is empty
  · intro hyp d hd
    obtain ⟨sig, hsig, rfl⟩ := hmem d hd
    show sig.source ≠ str "formula_exact"
    rcases mem_genSignals_cases hsig with ((((h | h) | h) | ⟨n, _, h⟩) | h) | h
    · rw [mem_signals_from_cas (mem_of_ite_nil h)]; decide
    · rw [mem_signals_from_cas (mem_of_ite_nil h)]; decide
    · cases hcin : cas_in_nameOf cleaned with
      | none =>
        simp only [hcin] at h
        exact absurd h (List.not_mem_nil sig)
      | some cin =>
        simp only [hcin] at h
        rw [mem_signals_from_cas h]; decide
    · rcases mem_signals_from_name h with h5 | h5 | h5 | h5 | h5 <;>
        (rw [h5]; decide)
    · rw [hyp] at h
      simp at h
    · cases hun : cleaned.un_number with
      | none =>
        simp only [hun] at h
        exact absurd h (List.not_mem_nil sig)
      | some u =>
        simp only [hun] at h
        rw [mem_signals_from_un (mem_of_ite_nil h)]; decide
  -- (3) no cas_exact signals when cas is empty or invalid
  · intro hyp d hd
    obtain ⟨sig, hsig, rfl⟩ := hmem d hd
    show sig.source ≠ str "cas_exact"
    rcases mem_genSignals_cases hsig with ((((h | h) | h) | ⟨n, _, h⟩) | h) | h
    · rcases hyp with hyp | hyp
      · rw [hyp] at h
        simp at h
      · rw [hyp] at h
        simp at h
    · rw [mem_signals_from_cas (mem_of_ite_nil h)]; decide
    · cases hcin : cas_in_nameOf cleaned with
      | none =>
        simp only [hcin] at h
        exact absurd h (List.not_mem_nil sig)
      | some cin =>
        simp only [hcin] at h
        rw [mem_signals_from_cas h]; decide
    · rcases mem_signals_from_name h with h5 | h5 | h5 | h5 | h5 <;>
        (rw [h5]; decide)
    · rw [mem_signals_from_formula (mem_of_ite_nil h)]; decide
    · cases hun : cleaned.un_number with
      | none =>
        simp only [hun] at h
        exact absurd h (List.not_mem_nil sig)
      | some u =>
        simp only [hun] at h
        rw [mem_signals_from_un (mem_of_ite_nil h)]; decide
  -- (4) no cas_scanned signals when cas_scanned is empty
  · intro hyp d hd
    obtain ⟨sig, hsig, rfl⟩ := hmem d hd
    show sig.source ≠ str "cas_scanned"
    rcases mem_genSignals_cases hsig with ((((h | h) | h) | ⟨n, _, h⟩) | h) | h
    · rw [mem_signals_from_cas (mem_of_ite_nil h)]; decide
    · rw [hyp] at h
      simp at h
    · cases hcin : cas_in_nameOf cleaned with
      | none =>
        simp only [hcin] at h
        exact absurd h (List.not_mem_nil sig)
      | some cin =>
        simp only [hcin] at h
        rw [mem_signals_from_cas h]; decide
    · rcases mem_signals_from_name h with h5 | h5 | h5 | h5 | h5 <;>
        (rw [h5]; decide)
    · rw [mem_signals_from_formula (mem_of_ite_nil h)]; decide
    · cases hun : cleaned.un_number with
      | none =>
        simp only [hun] at h
        exact absurd h (List.not_mem_nil sig)
      | some u =>
        simp only [hun] at h
        rw [mem_signals_from_un (mem_of_ite_nil h)]; decide
  -- (5) no name-family signals when name and CAS column are both empty
  · intro hname hcas d hd
    obtain ⟨sig, hsig, rfl⟩ := hmem d hd
    show sig.source ≠ str "name_exact" ∧ sig.source ≠ str "name_synonym" ∧
      sig.source ≠ str "name_normalized" ∧ sig.source ≠ str "name_fuzzy" ∧
      sig.source ≠ str "synonym_fuzzy"
    have hnc : nameCandidatesOf cleaned = [] := by
      simp only [nameCandidatesOf, hname]
      rw [show name_in_casOf cleaned = none by simp [name_in_casOf, hcas]]
      rfl
    rcases mem_genSignals_cases hsig with ((((h | h) | h) | ⟨n, hn, h⟩) | h) | h
    · rw [mem_signals_from_cas (mem_of_ite_nil h)]
      exact ⟨by decide, by decide, by decide, by decide, by decide⟩
    · rw [mem_signals_from_cas (mem_of_ite_nil h)]
      exact ⟨by decide, by decide, by decide, by decide, by decide⟩
    · cases hcin : cas_in_nameOf cleaned with
      | none =>
        simp only [hcin] at h
        exact absurd h (List.not_mem_nil sig)
      | some cin =>
        simp only [hcin] at h
        rw [mem_signals_from_cas h]
        exact ⟨by decide, by decide, by decide, by decide, by decide⟩
    · rw [hnc] at hn
      exact absurd hn (List.not_mem_nil n)
    · rw [mem_signals_from_formula (mem_of_ite_nil h)]
      exact ⟨by decide, by decide, by decide, by decide, by decide⟩
    · cases hun : cleaned.un_number with
      | none =>
        simp only [hun] at h
        exact absurd h (List.not_mem_nil sig)
      | some u =>
        simp only [hun] at h
        rw [mem_signals_from_un (mem_of_ite_nil h)]
        exact ⟨by decide, by decide, by decide, by decide, by decide⟩

/-- Witness: a row with every relevant field missing or malformed (a
non-numeric `un_number`) is matched without any signal of the
corresponding generators. -/
theorem missing_fields_no_signals_witness :
    ((∀ u, (Cleaned.mk none false none none none (some (str "NaN"))).un_number = some u →
        pyInt u = none) ∧
      ∀ d ∈ (matchRow (buildCaches dbWax) exNone
          (Cleaned.mk none false none none none (some (str "NaN")))).signals,
        d.source ≠ str "un_exact") ∧
    (pyStrip (optStr (Cleaned.mk none false none none none
        (some (str "NaN"))).name) = []) := by
  refine ⟨⟨?_, ?_⟩, by decide⟩
  · intro u hu
    cases hu
    decide
  · exact (missing_fields_no_signals (buildCaches dbWax) exNone
      (Cleaned.mk none false none none none (some (str "NaN")))).1
      (by intro u hu; cases hu; decide)

/-! ## Product-code rejection (claim C7) -/

/-- Claim C7: `is_likely_product_code` accepts every all-digit string longer
than 10 digits (after removing spaces and dashes), and every 8–10 digit
string whose first three digits are a known product-code sequence; any such
string is rejected by CAS reconstruction even if it would pass the
checksum. -/
theorem product_code_rejection :
    (∀ s : Str, (stripSpaceDash s).all isDigitChar = true →
      10 < (stripSpaceDash s).length → is_likely_product_code s = true) ∧
    (∀ s : Str, (stripSpaceDash s).all isDigitChar = true →
      8 ≤ (stripSpaceDash s).length → (stripSpaceDash s).length ≤ 10 →
      ((stripSpaceDash s).take 3 = str "111" ∨ (stripSpaceDash s).take 3 = str "112" ∨
       (stripSpaceDash s).take 3 = str "110" ∨ (stripSpaceDash s).take 3 = str "100" ∨
       (stripSpaceDash s).take 3 = str "200" ∨ (stripSpaceDash s).take 3 = str "300") →
      is_likely_product_code s = true) ∧
    (∀ digits : Str, is_likely_product_code digits = true →
      reconstruct_cas_from_digits digits = none) := by
  refine ⟨?_, ?_, ?_⟩
  · intro s hall hlen
    have hdne : (stripSpaceDash s).isEmpty = false := by
      cases hd : stripSpaceDash s with
      | nil => rw [hd] at hlen; simp at hlen
      | cons a t => rfl
    have hne : s.isEmpty = false := by
      cases s with
      | nil => simp [stripSpaceDash] at hlen
      | cons a t => rfl
    simp [is_likely_product_code, pyIsDigitStr, hne, hdne, hall, hlen]
  · intro s hall h8 h10 htake
    have hdne : (stripSpaceDash s).isEmpty = false := by
      cases hd : stripSpaceDash s with
      | nil => rw [hd] at h8; simp at h8
      | cons a t => rfl
    have hne : s.isEmpty = false := by
      cases s with
      | nil => simp [stripSpaceDash] at h8
      | cons a t => rfl
    have hnot : ¬(10 < (stripSpaceDash s).length) := by omega
    have hmem : memS ((stripSpaceDash s).take 3)
        (strs ["111", "112", "110", "100", "200", "300"]) = true := by
      rcases htake with h | h | h | h | h | h <;> rw [h] <;> decide
    simp [is_likely_product_code, pyIsDigitStr, hne, hdne, hall, hnot, hmem, h8]
  · intro digits h
    simp [reconstruct_cas_from_digits, h]

/-- Witness: an 11-digit string, and an 8-digit string with prefix `111`,
are flagged as product codes; the latter is refused by reconstruction. -/
theorem product_code_rejection_witness :
    ((stripSpaceDash (str "11145678901")).all isDigitChar = true ∧
     10 < (stripSpaceDash (str "11145678901")).length ∧
     is_likely_product_code (str "11145678901") = true) ∧
    ((stripSpaceDash (str "11123456")).all isDigitChar = true ∧
     8 ≤ (stripSpaceDash (str "11123456")).length ∧
     (stripSpaceDash (str "11123456")).length ≤ 10 ∧
     (stripSpaceDash (str "11123456")).take 3 = str "111" ∧
     is_likely_product_code (str "11123456") = true ∧
     reconstruct_cas_from_digits (str "11123456") = none) :=
  ⟨⟨by decide, by decide,
    product_code_rejection.1 (str "11145678901") (by decide) (by decide)⟩,
   ⟨by decide, by decide, by decide, by decide,
    product_code_rejection.2.1 (str "11123456") (by decide) (by decide) (by decide)
      (Or.inl (by decide)),
    product_code_rejection.2.2 (str "11123456")
      (product_code_rejection.2.1 (str "11123456") (by decide) (by decide) (by decide)
        (Or.inl (by decide)))⟩⟩

/-! ## CAS validation (claim C3) -/

theorem takeWhile_of_all_append {p : Char → Bool} {a : Str} {c : Char} {t : Str}
    (ha : ∀ x ∈ a, p x = true) (hc : p c = false) :
    ((a ++ c :: t).takeWhile p = a) ∧ ((a ++ c :: t).dropWhile p = c :: t) := by
  induction a with
  | nil => simp [List.takeWhile_cons, List.dropWhile_cons, hc]
  | cons x xs ih =>
    have hx : p x = true := ha x (by simp)
    have ih₁ := ih (fun y hy => ha y (by simp [hy]))
    simp [List.takeWhile_cons, List.dropWhile_cons, hx, ih₁.1, ih₁.2]

theorem wsumRev_enumFrom (l : Str) : ∀ i, wsumRev i l =
    ((List.enumFrom i l).map (fun p => (p.1 + 1) * digitVal p.2)).sum := by
  induction l with
  | nil => intro i; rfl
  | cons c t ih =>
    intro i
    simp [wsumRev, List.enumFrom, ih (i + 1)]

theorem casChecksumHolds_iff (digits : Str) :
    casChecksumHolds digits = true ↔ casChecksumSpec digits := by
  cases hrev : digits.reverse with
  | nil =>
    have hnil : digits = [] := by
      rw [← List.reverse_reverse digits, hrev]
      rfl
    constructor
    · intro h
      simp [casChecksumHolds, hrev] at h
    · rintro ⟨body, chk, heq, -⟩
      rw [hnil] at heq
      exact absurd heq.symm (by simp)
  | cons chk revBody =>
    have hd : digits = revBody.reverse ++ [chk] := by
      rw [← List.reverse_reverse digits, hrev, List.reverse_cons]
    constructor
    · intro h
      simp only [casChecksumHolds, hrev, decide_eq_true_eq] at h
      refine ⟨revBody.reverse, chk, hd, ?_⟩
      rw [List.reverse_reverse]
      rw [show List.enum revBody = List.enumFrom 0 revBody from rfl]
      rw [← wsumRev_enumFrom]
      exact h
    · rintro ⟨body, chk₁, heq, hsum⟩
      have hlen : ([chk₁] : Str).length = ([chk] : Str).length := rfl
      obtain ⟨hb, hc⟩ := List.append_inj' (heq.symm.trans hd) hlen
      obtain rfl : chk₁ = chk := by injection hc
      simp only [casChecksumHolds, hrev, decide_eq_true_eq]
      rw [hb, List.reverse_reverse] at hsum
      rw [show List.enum revBody = List.enumFrom 0 revBody from rfl] at hsum
      rw [← wsumRev_enumFrom] at hsum
      exact hsum

theorem takeWhile_drop_decomp (p : Char → Bool) (l : Str) :
    l.takeWhile p ++ l.drop (l.takeWhile p).length = l := by
  induction l with
  | nil => rfl
  | cons c t ih =>
    by_cases h : p c = true
    · simp [List.takeWhile_cons, h, ih]
    · simp [List.takeWhile_cons, h]

theorem casFormatB_iff (l : Str) : casFormatB l = true ↔ casPatternSpec l := by
  constructor
  · intro h
    simp only [casFormatB, Bool.and_eq_true, decide_eq_true_eq] at h
    obtain ⟨⟨h2, h7⟩, hm⟩ := h
    split at hm
    · rename_i d₁ d₂ d₃ heq
      simp only [Bool.and_eq_true] at hm
      refine ⟨l.takeWhile isDigitChar, [d₁, d₂], [d₃], ?_, h2, h7,
        fun x hx => List.mem_takeWhile_imp hx, rfl, ?_, rfl, ?_⟩
      · conv_lhs => rw [← takeWhile_drop_decomp isDigitChar l]
        rw [heq]
        rfl
      · intro x hx
        rcases List.mem_pair.mp hx with rfl | rfl
        · exact hm.1.1
        · exact hm.1.2
      · intro x hx
        rw [List.mem_singleton] at hx
        subst hx
        exact hm.2
    · exact absurd hm (by simp)
  · rintro ⟨a, b, c₃, rfl, h2, h7, ha, hb2, hbd, hc1, hcd⟩
    obtain ⟨x, y, rfl⟩ := List.length_eq_two.mp hb2
    obtain ⟨z, rfl⟩ := List.length_eq_one.mp hc1
    have ht : (a ++ ['-', x, y, '-', z]).takeWhile isDigitChar = a :=
      (takeWhile_of_all_append ha (by decide : isDigitChar '-' = false)).1
    simp only [List.cons_append, List.nil_append, casFormatB, ht, List.drop_left,
      Bool.and_eq_true, decide_eq_true_eq]
    exact ⟨⟨h2, h7⟩, ⟨hbd x (by simp), hbd y (by simp)⟩, hcd z (by simp)⟩

theorem not_casPatternSpec_nil : ¬ casPatternSpec [] := by
  rintro ⟨a, b, c₃, heq, h2, -⟩
  rcases List.append_eq_nil.mp heq.symm with ⟨rfl, h⟩
  simp at h2

/-- Claim C3: `validate_cas` accepts a string iff, after stripping spaces,
it matches `\d{2,7}-\d{2}-\d` and the position-weighted right-to-left
checksum of the digits equals the check digit; `67-64-1` is valid and every
other check digit for `67-64-` is rejected. -/
theorem validate_cas_correct :
    (∀ s : Str, ((validate_cas s).1 = true ↔
      casPatternSpec (removeChar ' ' (pyStrip s)) ∧
      casChecksumSpec (removeChar '-' (removeChar ' ' (pyStrip s))))) ∧
    validate_cas (str "67-64-1") = (true, str "67-64-1") ∧
    ((validate_cas (str "67-64-0")).1 = false ∧ (validate_cas (str "67-64-2")).1 = false ∧
     (validate_cas (str "67-64-3")).1 = false ∧ (validate_cas (str "67-64-4")).1 = false ∧
     (validate_cas (str "67-64-5")).1 = false ∧ (validate_cas (str "67-64-6")).1 = false ∧
     (validate_cas (str "67-64-7")).1 = false ∧ (validate_cas (str "67-64-8")).1 = false ∧
     (validate_cas (str "67-64-9")).1 = false) := by
  refine ⟨?_, by decide, by decide, by decide, by decide, by decide, by decide, by decide,
    by decide, by decide, by decide⟩
  intro s
  by_cases hemp : (s.isEmpty || (pyStrip s).isEmpty) = true
  · have hstrip : pyStrip s = [] := by
      simp only [Bool.or_eq_true] at hemp
      rcases hemp with h | h
      · have : s = [] := by
          cases s with
          | nil => rfl
          | cons a t => simp at h
        rw [this]
        rfl
      · cases hs : pyStrip s with
        | nil => rfl
        | cons a t => rw [hs] at h; simp at h
    constructor
    · intro hv
      simp [validate_cas, hemp] at hv
    · rintro ⟨hpat, -⟩
      rw [hstrip] at hpat
      exact absurd hpat not_casPatternSpec_nil
  · have hemp₁ : (s.isEmpty || (pyStrip s).isEmpty) = false := by
      simpa using hemp
    constructor
    · intro hv
      simp only [validate_cas, hemp₁] at hv
      rw [if_neg (by simp)] at hv
      split at hv
      · rename_i hfmt
        simp at hv
      · rename_i hfmt
        split at hv
        · rename_i hchk
          refine ⟨(casFormatB_iff _).mp ?_, (casChecksumHolds_iff _).mp hchk⟩
          simpa using hfmt
        · simp at hv
    · rintro ⟨hpat, hchk⟩
      simp only [validate_cas, hemp₁]
      rw [if_neg (by simp)]
      rw [if_neg (by simp [(casFormatB_iff _).mpr hpat])]
      rw [if_pos ((casChecksumHolds_iff _).mpr hchk)]

/-! ## Fusion and the multi-field agreement bonus (claim C4) -/

/-- Claim C4, refuted on a concrete row.  The row supplies only a name and a
(swapped) CAS column text; both of its signals are name-category matches in
the claim reading (a fuzzy name hit and a fuzzy synonym hit on the same
candidate).  The claim counts one agreeing category among CAS, name,
formula, UN — no bonus, confidence 0.4974 — but the code derives categories
from the source-tag text before the first underscore, so `synonym_fuzzy` is
a fifth category distinct from `name`: it counts two agreeing categories,
applies the 0.12 bonus and returns confidence 0.6174. -/
theorem fusion_bonus_counterexample :
    bonusSigs.map (fun s => (s.source, s.chemical_id)) =
      [(str "name_fuzzy", 1), (str "synonym_fuzzy", 1)] ∧
    (∀ s ∈ bonusSigs, mkRat 40 100 ≤ s.weighted_score) ∧
    sortDescByScore (candidateScores bonusSigs) = [(1, mkRat 189 200)] ∧
    aget 1 [] (candidateNames bonusSigs) = str "ACETONE" ∧
    agreeingCategories bonusSigs 1 (str "ACETONE") = [str "name", str "synonym"] ∧
    claimAgreeing bonusSigs 1 (str "ACETONE") = [str "name"] ∧
    pyRound 4 (claimConfidence (fuseInOf rowBonus) bonusSigs 1 (mkRat 189 200)
      (str "ACETONE")) = mkRat 2487 5000 ∧
    (matchRow (buildCaches dbBonus) exBonus rowBonus).confidence = mkRat 3087 5000 ∧
    (matchRow (buildCaches dbBonus) exBonus rowBonus).conflicts = [] ∧
    (matchRow (buildCaches dbBonus) exBonus rowBonus).match_status =
      str "REVIEW_REQUIRED" := by
  refine ⟨by decide, by decide, by decide, by decide, by decide, by decide, by decide,
    by decide, by decide, by decide⟩

theorem alookup_mem {α β : Type} [DecidableEq α] {k : α} {v : β} :
    ∀ {l : List (α × β)}, alookup k l = some v → (k, v) ∈ l := by
  intro l
  induction l with
  | nil => intro h; exact absurd h (by simp [alookup])
  | cons q t ih =>
    obtain ⟨k₁, v₁⟩ := q
    intro h
    rw [alookup] at h
    by_cases he : k₁ = k
    · rw [if_pos he] at h
      injection h with h₁
      subst he
      subst h₁
      exact List.mem_cons_self _ _
    · rw [if_neg he] at h
      exact List.mem_cons_of_mem _ (ih h)

theorem alookup_of_mem_nodup {α β : Type} [DecidableEq α] :
    ∀ {l : List (α × β)} {k : α} {v : β}, (l.map (fun p => p.1)).Nodup →
      (k, v) ∈ l → alookup k l = some v := by
  intro l
  induction l with
  | nil => intro k v _ h; exact absurd h (List.not_mem_nil _)
  | cons q t ih =>
    intro k v hnd h
    obtain ⟨k₁, v₁⟩ := q
    rw [List.map_cons, List.nodup_cons] at hnd
    rw [List.mem_cons, Prod.mk.injEq] at h
    rcases h with ⟨rfl, rfl⟩ | h
    · simp [alookup]
    · have hk : k₁ ≠ k := by
        intro he
        subst he
        exact hnd.1 (List.mem_map.mpr ⟨(k₁, v), h, rfl⟩)
      rw [alookup, if_neg hk]
      exact ih hnd.2 h

theorem alookup_map_snd {α β γ : Type} [DecidableEq α] (g : β → γ) :
    ∀ {l : List (α × β)} {k : α} {v : β}, (l.map (fun p => p.1)).Nodup →
      (k, v) ∈ l → alookup k (l.map (fun p => (p.1, g p.2))) = some (g v) := by
  intro l
  induction l with
  | nil => intro k v _ h; exact absurd h (List.not_mem_nil _)
  | cons q t ih =>
    intro k v hnd h
    obtain ⟨k₁, v₁⟩ := q
    rw [List.map_cons, List.nodup_cons] at hnd
    rw [List.mem_cons, Prod.mk.injEq] at h
    rcases h with ⟨rfl, rfl⟩ | h
    · simp [alookup]
    · have hk : k₁ ≠ k := by
        intro he
        subst he
        exact hnd.1 (List.mem_map.mpr ⟨(k₁, v), h, rfl⟩)
      show alookup k ((k₁, g v₁) :: t.map (fun p => (p.1, g p.2))) = some (g v)
      rw [alookup, if_neg hk]
      exact ih hnd.2 h

theorem mem_mapSet {α β : Type} [DecidableEq α] {k : α} {v : β} :
    ∀ {l : List (α × β)} {q : α × β}, q ∈ mapSet k v l → q ∈ l ∨ q = (k, v) := by
  intro l
  induction l with
  | nil =>
    intro q h
    rw [mapSet, List.mem_singleton] at h
    exact Or.inr h
  | cons p t ih =>
    intro q h
    obtain ⟨k₁, v₁⟩ := p
    rw [mapSet] at h
    by_cases he : k₁ = k
    · rw [if_pos he] at h
      rw [List.mem_cons] at h
      rcases h with h | h
      · subst he
        exact Or.inr h
      · exact Or.inl (List.mem_cons_of_mem _ h)
    · rw [if_neg he] at h
      rw [List.mem_cons] at h
      rcases h with h | h
      · exact Or.inl (h ▸ List.mem_cons_self _ _)
      · rcases ih h with h₁ | h₁
        · exact Or.inl (List.mem_cons_of_mem _ h₁)
        · exact Or.inr h₁

theorem alookup_mapSet_self {α β : Type} [DecidableEq α] (k : α) (v : β) :
    ∀ l : List (α × β), alookup k (mapSet k v l) = some v := by
  intro l
  induction l with
  | nil => simp [mapSet, alookup]
  | cons p t ih =>
    obtain ⟨k₁, v₁⟩ := p
    by_cases he : k₁ = k
    · simp [mapSet, alookup, he]
    · simp only [mapSet, if_neg he, alookup]
      exact ih

theorem alookup_mapSet_ne {α β : Type} [DecidableEq α] {a k : α} (v : β) (hne : k ≠ a) :
    ∀ l : List (α × β), alookup a (mapSet k v l) = alookup a l := by
  intro l
  induction l with
  | nil => simp [mapSet, alookup, hne]
  | cons p t ih =>
    obtain ⟨k₁, v₁⟩ := p
    by_cases he : k₁ = k
    · subst he
      simp [mapSet, alookup, hne]
    · simp only [mapSet, if_neg he, alookup, ih]

theorem aggStep_cons (sig : Signal) (cid : Nat) (tm : List (Str × Signal))
    (t : List (Nat × List (Str × Signal))) :
    aggStep ((cid, tm) :: t) sig =
      if cid = sig.chemical_id then
        (cid, match alookup sig.source tm with
          | none => mapSet sig.source sig tm
          | some existing =>
            if existing.weighted_score < sig.weighted_score then mapSet sig.source sig tm
            else tm) :: t
      else (cid, tm) :: aggStep t sig := rfl

theorem keys_aggStep (sig : Signal) : ∀ m : List (Nat × List (Str × Signal)),
    (aggStep m sig).map (fun p => p.1) =
      if sig.chemical_id ∈ m.map (fun p => p.1) then m.map (fun p => p.1)
      else m.map (fun p => p.1) ++ [sig.chemical_id] := by
  intro m
  induction m with
  | nil =>
    have h : aggStep [] sig = [(sig.chemical_id, [(sig.source, sig)])] := rfl
    rw [h]
    simp
  | cons p t ih =>
    obtain ⟨cid, tm⟩ := p
    by_cases he : cid = sig.chemical_id
    · subst he
      rw [aggStep_cons, if_pos rfl]
      show sig.chemical_id :: t.map (fun p => p.1) =
        if sig.chemical_id ∈ sig.chemical_id :: t.map (fun p => p.1) then
          sig.chemical_id :: t.map (fun p => p.1)
        else (sig.chemical_id :: t.map (fun p => p.1)) ++ [sig.chemical_id]
      rw [if_pos (List.mem_cons_self _ _)]
    · rw [aggStep_cons, if_neg he]
      by_cases hm : sig.chemical_id ∈ t.map (fun p => p.1)
      · simp [ih, hm, Ne.symm he]
      · simp [ih, hm, Ne.symm he]

theorem aggStep_mem (sig : Signal) : ∀ (m : List (Nat × List (Str × Signal)))
    (p : Nat × List (Str × Signal)), p ∈ aggStep m sig →
    p ∈ m ∨ (p.1 = sig.chemical_id ∧ ∀ q ∈ p.2,
      (∃ tm, (sig.chemical_id, tm) ∈ m ∧ q ∈ tm) ∨ q = (sig.source, sig)) := by
  intro m
  induction m with
  | nil =>
    intro p h
    have hnil : aggStep [] sig = [(sig.chemical_id, [(sig.source, sig)])] := rfl
    rw [hnil, List.mem_singleton] at h
    subst h
    refine Or.inr ⟨rfl, ?_⟩
    intro q hq
    rw [List.mem_singleton] at hq
    exact Or.inr hq
  | cons hd t ih =>
    intro p h
    obtain ⟨cid, tm⟩ := hd
    rw [aggStep_cons] at h
    by_cases he : cid = sig.chemical_id
    · rw [if_pos he] at h
      rw [List.mem_cons] at h
      rcases h with h | h
      · subst h
        refine Or.inr ⟨he, ?_⟩
        intro q hq
        have hq₁ : q ∈ tm ∨ q = (sig.source, sig) := by
          rcases hlk : alookup sig.source tm with _ | existing
          · simp only [hlk] at hq
            exact mem_mapSet hq
          · simp only [hlk] at hq
            split at hq
            · exact mem_mapSet hq
            · exact Or.inl hq
        rcases hq₁ with hq₁ | hq₁
        · refine Or.inl ⟨tm, ?_, hq₁⟩
          rw [← he]
          exact List.mem_cons_self _ _
        · exact Or.inr hq₁
      · exact Or.inl (List.mem_cons_of_mem _ h)
    · rw [if_neg he] at h
      rw [List.mem_cons] at h
      rcases h with h | h
      · exact Or.inl (h ▸ List.mem_cons_self _ _)
      · rcases ih p h with h₁ | ⟨h₁, h₂⟩
        · exact Or.inl (List.mem_cons_of_mem _ h₁)
        · refine Or.inr ⟨h₁, ?_⟩
          intro q hq
          rcases h₂ q hq with ⟨tm₀, htm, hq₀⟩ | hq₀
          · exact Or.inl ⟨tm₀, List.mem_cons_of_mem _ htm, hq₀⟩
          · exact Or.inr hq₀

theorem aggStep_lookup_mono (sig : Signal) :
    ∀ (m : List (Nat × List (Str × Signal))) (cid : Nat) (tm : List (Str × Signal)),
      alookup cid m = some tm →
      ∃ tm₁, alookup cid (aggStep m sig) = some tm₁ ∧
        ∀ (tag : Str) (kept₀ : Signal), alookup tag tm = some kept₀ →
          ∃ kept₁, alookup tag tm₁ = some kept₁ ∧
            kept₀.weighted_score ≤ kept₁.weighted_score := by
  intro m
  induction m with
  | nil => intro cid tm h; exact absurd h (by simp [alookup])
  | cons hd t ih =>
    intro cid tm h
    obtain ⟨c, tm₀⟩ := hd
    by_cases hc : c = sig.chemical_id
    · rw [aggStep_cons, if_pos hc]
      by_cases hcid : c = cid
      · rw [alookup, if_pos hcid] at h
        injection h with hh
        subst hh
        refine ⟨_, by rw [alookup, if_pos hcid], ?_⟩
        intro tag kept₀ hk
        rcases hlk : alookup sig.source tm₀ with _ | existing
        · simp only [hlk]
          by_cases ht : sig.source = tag
          · subst ht
            rw [hlk] at hk
            exact absurd hk (by simp)
          · exact ⟨kept₀, by rw [alookup_mapSet_ne sig ht]; exact hk, le_refl _⟩
        · simp only [hlk]
          split
          · rename_i hlt
            by_cases ht : sig.source = tag
            · subst ht
              rw [hlk] at hk
              injection hk with hk₁
              subst hk₁
              exact ⟨sig, alookup_mapSet_self _ _ _, le_of_lt hlt⟩
            · exact ⟨kept₀, by rw [alookup_mapSet_ne sig ht]; exact hk, le_refl _⟩
          · exact ⟨kept₀, hk, le_refl _⟩
      · rw [alookup, if_neg hcid] at h
        exact ⟨tm, by rw [alookup, if_neg hcid]; exact h,
          fun tag kept₀ hk => ⟨kept₀, hk, le_refl _⟩⟩
    · rw [aggStep_cons, if_neg hc]
      by_cases hcid : c = cid
      · rw [alookup, if_pos hcid] at h
        injection h with hh
        subst hh
        exact ⟨tm₀, by rw [alookup, if_pos hcid],
          fun tag kept₀ hk => ⟨kept₀, hk, le_refl _⟩⟩
      · rw [alookup, if_neg hcid] at h
        obtain ⟨tm₁, h₁, h₂⟩ := ih cid tm h
        exact ⟨tm₁, by rw [alookup, if_neg hcid]; exact h₁, h₂⟩

theorem aggStep_lookup_self (sig : Signal) :
    ∀ m : List (Nat × List (Str × Signal)),
      ∃ tm₁, alookup sig.chemical_id (aggStep m sig) = some tm₁ ∧
        ∃ kept, alookup sig.source tm₁ = some kept ∧
          sig.weighted_score ≤ kept.weighted_score := by
  intro m
  induction m with
  | nil =>
    refine ⟨[(sig.source, sig)], ?_, sig, ?_, le_refl _⟩
    · have hnil : aggStep [] sig = [(sig.chemical_id, [(sig.source, sig)])] := rfl
      rw [hnil, alookup, if_pos rfl]
    · rw [alookup, if_pos rfl]
  | cons hd t ih =>
    obtain ⟨c, tm₀⟩ := hd
    by_cases hc : c = sig.chemical_id
    · rw [aggStep_cons, if_pos hc]
      refine ⟨_, by rw [alookup, if_pos hc], ?_⟩
      rcases hlk : alookup sig.source tm₀ with _ | existing
      · simp only [hlk]
        exact ⟨sig, alookup_mapSet_self _ _ _, le_refl _⟩
      · simp only [hlk]
        split
        · exact ⟨sig, alookup_mapSet_self _ _ _, le_refl _⟩
        · rename_i hge
          exact ⟨existing, hlk, not_lt.mp hge⟩
    · rw [aggStep_cons, if_neg hc]
      obtain ⟨tm₁, h₁, h₂⟩ := ih
      refine ⟨tm₁, ?_, h₂⟩
      rw [alookup, if_neg hc]
      exact h₁

theorem aggStep_inv {processed : List Signal} {m : List (Nat × List (Str × Signal))}
    (sig : Signal) (h : AggInv processed m) :
    AggInv (processed ++ [sig]) (aggStep m sig) := by
  obtain ⟨hnd, hwf, hdom⟩ := h
  refine ⟨?_, ?_, ?_⟩
  · rw [keys_aggStep]
    split
    · exact hnd
    · rename_i hnm
      refine List.Nodup.append hnd (List.nodup_singleton _) ?_
      intro a ha hb
      rw [List.mem_singleton] at hb
      subst hb
      exact hnm ha
  · intro p hp q hq
    rcases aggStep_mem sig m p hp with hp₁ | ⟨hp₁, hp₂⟩
    · obtain ⟨h₁, h₂, h₃⟩ := hwf p hp₁ q hq
      exact ⟨List.mem_append_left _ h₁, h₂, h₃⟩
    · rcases hp₂ q hq with ⟨tm₀, htm, hq₀⟩ | rfl
      · obtain ⟨h₁, h₂, h₃⟩ := hwf _ htm q hq₀
        refine ⟨List.mem_append_left _ h₁, ?_, h₃⟩
        rw [h₂, hp₁]
      · exact ⟨List.mem_append_right _ (List.mem_singleton.mpr rfl), hp₁.symm, rfl⟩
  · intro s hs
    rw [List.mem_append] at hs
    rcases hs with hs | hs
    · obtain ⟨tm, h₁, kept, h₂, h₃⟩ := hdom s hs
      obtain ⟨tm₁, h₄, h₅⟩ := aggStep_lookup_mono sig m s.chemical_id tm h₁
      obtain ⟨kept₁, h₆, h₇⟩ := h₅ s.source kept h₂
      exact ⟨tm₁, h₄, kept₁, h₆, le_trans h₃ h₇⟩
    · rw [List.mem_singleton] at hs
      subst hs
      exact aggStep_lookup_self s m

theorem aggInv_foldl : ∀ (sigs processed : List Signal)
    (m : List (Nat × List (Str × Signal))),
    AggInv processed m → AggInv (processed ++ sigs) (sigs.foldl aggStep m) := by
  intro sigs
  induction sigs with
  | nil => intro processed m h; simpa using h
  | cons x t ih =>
    intro processed m h
    have h₂ := ih (processed ++ [x]) (aggStep m x) (aggStep_inv x h)
    simpa [List.append_assoc] using h₂

theorem aggInv_candidateBestPerType (signals : List Signal) :
    AggInv signals (candidateBestPerType signals) := by
  have h := aggInv_foldl signals [] []
    ⟨List.nodup_nil, by intro p hp; exact absurd hp (List.not_mem_nil p),
     by intro s hs; exact absurd hs (List.not_mem_nil s)⟩
  simpa [candidateBestPerType] using h

theorem foldl_qadd_map {α : Type} (f : α → ℚ) : ∀ (l : List α) (a : ℚ),
    l.foldl (fun t s => qadd t (f s)) a = (l.map f).foldl qadd a := by
  intro l
  induction l with
  | nil => intro a; rfl
  | cons x t ih => intro a; simp only [List.foldl_cons, List.map_cons, ih]

theorem mem_addToSetS {x : Str} {s : List Str} {c : Str} (h : c ∈ addToSetS x s) :
    c ∈ s ∨ c = x := by
  simp only [addToSetS] at h
  split at h
  · exact Or.inl h
  · rw [List.mem_append, List.mem_singleton] at h
    exact h

theorem mem_foldl_extract {α β : Type} (Q : α → β → Prop)
    (step : List β → α → List β)
    (hstep : ∀ s a c, c ∈ step s a → c ∈ s ∨ Q a c) :
    ∀ (l : List α) (acc : List β) (c : β),
      c ∈ l.foldl step acc → c ∈ acc ∨ ∃ a ∈ l, Q a c := by
  intro l
  induction l with
  | nil => intro acc c h; exact Or.inl h
  | cons x t ih =>
    intro acc c h
    rcases ih (step acc x) c h with h₁ | ⟨a, ha, hQ⟩
    · rcases hstep acc x c h₁ with h₂ | h₂
      · exact Or.inl h₂
      · exact Or.inr ⟨x, List.mem_cons_self _ _, h₂⟩
    · exact Or.inr ⟨a, List.mem_cons_of_mem _ ha, hQ⟩

theorem agreeingCategories_eq_foldl (signals : List Signal) (best_id : Nat)
    (best_name : Str) :
    agreeingCategories signals best_id best_name =
      signals.foldl (agreeStep best_id best_name) [] := rfl

theorem agreeStep_cases (best_id : Nat) (best_name : Str) :
    ∀ (s : List Str) (sg : Signal) (c : Str), c ∈ agreeStep best_id best_name s sg →
      c ∈ s ∨ (mkRat 40 100 ≤ sg.weighted_score ∧ sourceCat sg.source = c ∧
        (sg.chemical_id = best_id ∨ (5 ≤ (baseOf best_name).length ∧
          baseOf sg.chemical_name = baseOf best_name))) := by
  intro s sg c hm
  simp only [agreeStep] at hm
  split at hm
  · exact Or.inl hm
  · rename_i hw
    split at hm
    · rename_i hid
      rcases mem_addToSetS hm with h | rfl
      · exact Or.inl h
      · exact Or.inr ⟨not_lt.mp hw, rfl, Or.inl hid⟩
    · rename_i hid
      split at hm
      · rename_i hg
        split at hm
        · rename_i hbase
          rcases mem_addToSetS hm with h | rfl
          · exact Or.inl h
          · refine Or.inr ⟨not_lt.mp hw, rfl, Or.inr ⟨?_, hbase⟩⟩
            rw [Bool.and_eq_true] at hg
            exact of_decide_eq_true hg.2
        · exact Or.inl hm
      · exact Or.inl hm

/-- Claim C4, amended.  Per candidate, the aggregation keeps one signal per
source tag — the kept signal belongs to the candidate, carries that tag, and
dominates every signal of the same candidate and tag — and the candidate
score is the sum of the kept signals' weighted scores.  The agreement
bonus, however, counts source-tag text before the first underscore, so the
categories are cas, name, synonym, formula and un: synonym-sourced fuzzy
signals form a category of their own, distinct from name, and same-base
credit also requires the winner base name to be at least five characters
long. -/
theorem fusion_amended :
    (∀ (signals : List Signal) (cid : Nat) (tm : List (Str × Signal)),
      (cid, tm) ∈ candidateBestPerType signals →
      alookup cid (candidateScores signals) =
        some (qsum ((tm.map (fun q => q.2)).map Signal.weighted_score)) ∧
      (∀ (tag : Str) (sg : Signal), alookup tag tm = some sg →
        sg ∈ signals ∧ sg.chemical_id = cid ∧ sg.source = tag) ∧
      (∀ s ∈ signals, s.chemical_id = cid →
        ∃ kept, alookup s.source tm = some kept ∧
          s.weighted_score ≤ kept.weighted_score)) ∧
    (∀ (signals : List Signal) (best_id : Nat) (best_name c : Str),
      c ∈ agreeingCategories signals best_id best_name →
      ∃ sg ∈ signals, mkRat 40 100 ≤ sg.weighted_score ∧ sourceCat sg.source = c ∧
        (sg.chemical_id = best_id ∨ (5 ≤ (baseOf best_name).length ∧
          baseOf sg.chemical_name = baseOf best_name))) ∧
    (∀ (c : Caches) (ex : Extractor) (cleaned : Cleaned) (sg : Signal),
      sg ∈ genSignals c ex cleaned →
      sourceCat sg.source ∈
        [str "cas", str "name", str "synonym", str "formula", str "un"]) := by
  refine ⟨?_, ?_, ?_⟩
  · intro signals cid tm hmem
    obtain ⟨hnd, hwf, hdom⟩ := aggInv_candidateBestPerType signals
    refine ⟨?_, ?_, ?_⟩
    · have hmapeq : candidateScores signals = (candidateBestPerType signals).map
          (fun p => (p.1, qsum ((p.2.map (fun q => q.2)).map Signal.weighted_score))) := by
        have hfun : (fun p : Nat × List (Str × Signal) =>
            (p.1, (p.2.map (fun q => q.2)).foldl (fun t s => qadd t s.weighted_score) 0)) =
            (fun p : Nat × List (Str × Signal) =>
              (p.1, qsum ((p.2.map (fun q => q.2)).map Signal.weighted_score))) := by
          funext p
          rw [Prod.mk.injEq]
          exact ⟨rfl, foldl_qadd_map Signal.weighted_score (p.2.map (fun q => q.2)) 0⟩
        rw [candidateScores, hfun]
      rw [hmapeq]
      exact alookup_map_snd
        (fun tmx => qsum ((tmx.map (fun q => q.2)).map Signal.weighted_score)) hnd hmem
    · intro tag sg hlk
      exact hwf (cid, tm) hmem (tag, sg) (alookup_mem hlk)
    · intro s hs hcid
      obtain ⟨tm₀, h₁, kept, h₂, h₃⟩ := hdom s hs
      have h₄ : alookup s.chemical_id (candidateBestPerType signals) = some tm := by
        rw [hcid]
        exact alookup_of_mem_nodup hnd hmem
      rw [h₄] at h₁
      injection h₁ with h₁
      subst h₁
      exact ⟨kept, h₂, h₃⟩
  · intro signals best_id best_name c hc
    rw [agreeingCategories_eq_foldl] at hc
    rcases mem_foldl_extract _ _ (agreeStep_cases best_id best_name) signals [] c hc with
      h | ⟨sg, hsg, hQ⟩
    · exact absurd h (List.not_mem_nil c)
    · exact ⟨sg, hsg, hQ⟩
  · intro c ex cleaned sg hg
    rcases mem_genSignals_cases hg with ((((h | h) | h) | ⟨n, _, h⟩) | h) | h
    · rw [mem_signals_from_cas (mem_of_ite_nil h)]
      decide
    · rw [mem_signals_from_cas (mem_of_ite_nil h)]
      decide
    · rcases hcin : cas_in_nameOf cleaned with _ | cin
      · rw [hcin] at h
        exact absurd h (List.not_mem_nil sg)
      · rw [hcin] at h
        rw [mem_signals_from_cas h]
        decide
    · rcases mem_signals_from_name h with h₁ | h₁ | h₁ | h₁ | h₁ <;> rw [h₁] <;> decide
    · rw [mem_signals_from_formula (mem_of_ite_nil h)]
      decide
    · rcases hun : cleaned.un_number with _ | u
      · rw [hun] at h
        exact absurd h (List.not_mem_nil sg)
      · rw [hun] at h
        rw [mem_signals_from_un (mem_of_ite_nil h)]
        decide

/-- Witness for the amended fusion theorem at the bonus scenario. -/
theorem fusion_amended_witness :
    (alookup 1 (candidateScores bonusSigs) =
      some (qsum (((aget 1 [] (candidateBestPerType bonusSigs)).map
        (fun q => q.2)).map Signal.weighted_score))) ∧
    (∃ sg ∈ bonusSigs, mkRat 40 100 ≤ sg.weighted_score ∧
      sourceCat sg.source = str "synonym" ∧
      (sg.chemical_id = 1 ∨ (5 ≤ (baseOf (str "ACETONE")).length ∧
        baseOf sg.chemical_name = baseOf (str "ACETONE")))) ∧
    sourceCat ((bonusSigs.headD ⟨0, [], [], 0, 0, []⟩).source) ∈
      [str "cas", str "name", str "synonym", str "formula", str "un"] :=
  ⟨(fusion_amended.1 bonusSigs 1 (aget 1 [] (candidateBestPerType bonusSigs))
      (by decide)).1,
   fusion_amended.2.1 bonusSigs 1 (str "ACETONE") (str "synonym") (by decide),
   fusion_amended.2.2 (buildCaches dbBonus) exBonus rowBonus
     (bonusSigs.headD ⟨0, [], [], 0, 0, []⟩) (by decide)⟩

/-! ## The anti-hallucination invariant (claim C1) -/

theorem foldl_state_preserve_mem {σ α : Type} (P : σ → Prop) (f : σ → α → σ) :
    ∀ (l : List α) (init : σ), P init → (∀ st a, a ∈ l → P st → P (f st a)) →
      P (l.foldl f init) := by
  intro l
  induction l with
  | nil => intro init h _; exact h
  | cons a t ih =>
    intro init h hf
    exact ih (f init a) (hf init a (List.mem_cons_self _ _) h)
      (fun st b hb hp => hf st b (List.mem_cons_of_mem _ hb) hp)

theorem mapAppend_val_mem {α β : Type} [DecidableEq α] {k : α} {v : β} :
    ∀ {l : List (α × List β)} {a : α} {bs : List β}, (a, bs) ∈ mapAppend k v l →
      ∀ e ∈ bs, (∃ p₀ ∈ l, e ∈ p₀.2) ∨ e = v := by
  intro l
  induction l with
  | nil =>
    intro a bs hp e he
    rw [mapAppend, List.mem_singleton, Prod.mk.injEq] at hp
    obtain ⟨rfl, rfl⟩ := hp
    rw [List.mem_singleton] at he
    exact Or.inr he
  | cons q t ih =>
    intro a bs hp e he
    obtain ⟨k₁, vs⟩ := q
    rw [mapAppend] at hp
    by_cases hk : k₁ = k
    · rw [if_pos hk] at hp
      rw [List.mem_cons, Prod.mk.injEq] at hp
      rcases hp with ⟨rfl, rfl⟩ | hp
      · rw [List.mem_append, List.mem_singleton] at he
        rcases he with he | he
        · exact Or.inl ⟨_, List.mem_cons_self _ _, he⟩
        · exact Or.inr he
      · exact Or.inl ⟨(a, bs), List.mem_cons_of_mem _ hp, he⟩
    · rw [if_neg hk] at hp
      rw [List.mem_cons, Prod.mk.injEq] at hp
      rcases hp with ⟨rfl, rfl⟩ | hp
      · exact Or.inl ⟨(a, bs), List.mem_cons_self _ _, he⟩
      · rcases ih hp e he with ⟨p₀, hp₀, he₀⟩ | he₀
        · exact Or.inl ⟨p₀, List.mem_cons_of_mem _ hp₀, he₀⟩
        · exact Or.inr he₀

theorem mem_insertByNameLen {x e : Entry} : ∀ {l : List Entry},
    e ∈ insertByNameLen x l → e = x ∨ e ∈ l := by
  intro l
  induction l with
  | nil =>
    intro h
    rw [insertByNameLen, List.mem_singleton] at h
    exact Or.inl h
  | cons y t ih =>
    intro h
    rw [insertByNameLen] at h
    split at h
    · rw [List.mem_cons] at h
      rcases h with h | h
      · exact Or.inr (h ▸ List.mem_cons_self _ _)
      · rcases ih h with h | h
        · exact Or.inl h
        · exact Or.inr (List.mem_cons_of_mem _ h)
    · rw [List.mem_cons] at h
      rcases h with h | h
      · exact Or.inl h
      · exact Or.inr h

theorem mem_sortByNameLen {e : Entry} {l : List Entry} (h : e ∈ sortByNameLen l) :
    e ∈ l := by
  rcases mem_foldl_extract (fun a c => c = a) (fun acc x => insertByNameLen x acc)
      (fun s a c hc => Or.symm (mem_insertByNameLen hc)) l [] e h with h₁ | ⟨a, ha, rfl⟩
  · exact absurd h₁ (List.not_mem_nil e)
  · exact ha

theorem mem_insertByScoreDesc {x e : Nat × ℚ} : ∀ {l : List (Nat × ℚ)},
    e ∈ insertByScoreDesc x l → e = x ∨ e ∈ l := by
  intro l
  induction l with
  | nil =>
    intro h
    rw [insertByScoreDesc, List.mem_singleton] at h
    exact Or.inl h
  | cons y t ih =>
    intro h
    rw [insertByScoreDesc] at h
    split at h
    · rw [List.mem_cons] at h
      rcases h with h | h
      · exact Or.inr (h ▸ List.mem_cons_self _ _)
      · rcases ih h with h | h
        · exact Or.inl h
        · exact Or.inr (List.mem_cons_of_mem _ h)
    · rw [List.mem_cons] at h
      rcases h with h | h
      · exact Or.inl h
      · exact Or.inr h

theorem mem_sortDescByScore {e : Nat × ℚ} {l : List (Nat × ℚ)}
    (h : e ∈ sortDescByScore l) : e ∈ l := by
  rcases mem_foldl_extract (fun a c => c = a) (fun acc x => insertByScoreDesc x acc)
      (fun s a c hc => Or.symm (mem_insertByScoreDesc hc)) l [] e h with h₁ | ⟨a, ha, rfl⟩
  · exact absurd h₁ (List.not_mem_nil e)
  · exact ha

theorem snd_mem_of_mem_enumFrom {α : Type} {p : Nat × α} :
    ∀ {n : Nat} {l : List α}, p ∈ List.enumFrom n l → p.2 ∈ l := by
  intro n l
  induction l generalizing n with
  | nil => intro h; exact absurd h (List.not_mem_nil p)
  | cons x t ih =>
    intro h
    rw [List.enumFrom, List.mem_cons] at h
    rcases h with h | h
    · rw [h]
      exact List.mem_cons_self _ _
    · exact List.mem_cons_of_mem _ (ih h)

theorem entryOk_casJoin {db : Database} {p : Str × Entry} (hp : p ∈ casJoinRows db) :
    EntryOk db p.2 := by
  simp only [casJoinRows, List.mem_flatMap] at hp
  obtain ⟨cc, _, hp⟩ := hp
  rw [List.mem_map] at hp
  obtain ⟨ch, hch, rfl⟩ := hp
  exact List.mem_map.mpr ⟨ch, List.mem_of_mem_filter hch, rfl⟩

theorem entryOk_unJoin {db : Database} {p : Int × Entry} (hp : p ∈ unJoinRows db) :
    EntryOk db p.2 := by
  simp only [unJoinRows, List.mem_flatMap] at hp
  obtain ⟨cu, _, hp⟩ := hp
  rw [List.mem_map] at hp
  obtain ⟨ch, hch, rfl⟩ := hp
  exact List.mem_map.mpr ⟨ch, List.mem_of_mem_filter hch, rfl⟩

theorem casMapOk (db : Database) :
    ∀ q ∈ ((casJoinRows db).foldl (fun m p => mapAppend (stripSpaceDash p.1) p.2 m)
      ([] : List (Str × List Entry))), ∀ e ∈ q.2, EntryOk db e := by
  refine foldl_state_preserve_mem
    (fun m : List (Str × List Entry) => ∀ q ∈ m, ∀ e ∈ q.2, EntryOk db e)
    _ (casJoinRows db) [] ?_ ?_
  · intro q hq
    exact absurd hq (List.not_mem_nil q)
  · intro m a ha hm q hq e he
    obtain ⟨qa, qbs⟩ := q
    rcases mapAppend_val_mem hq e he with ⟨p₀, hp₀, he₀⟩ | rfl
    · exact hm p₀ hp₀ e he₀
    · exact entryOk_casJoin ha

theorem unMapOk (db : Database) :
    ∀ q ∈ ((unJoinRows db).foldl (fun m p => mapAppend p.1 p.2 m)
      ([] : List (Int × List Entry))), ∀ e ∈ q.2, EntryOk db e := by
  refine foldl_state_preserve_mem
    (fun m : List (Int × List Entry) => ∀ q ∈ m, ∀ e ∈ q.2, EntryOk db e)
    _ (unJoinRows db) [] ?_ ?_
  · intro q hq
    exact absurd hq (List.not_mem_nil q)
  · intro m a ha hm q hq e he
    obtain ⟨qa, qbs⟩ := q
    rcases mapAppend_val_mem hq e he with ⟨p₀, hp₀, he₀⟩ | rfl
    · exact hm p₀ hp₀ e he₀
    · exact entryOk_unJoin ha

theorem entries_mapSet_ok {α : Type} [DecidableEq α] {db : Database}
    {l : List (α × Entry)} {k : α} {e : Entry}
    (hl : ∀ p ∈ l, EntryOk db p.2) (he : EntryOk db e) :
    ∀ p ∈ mapSet k e l, EntryOk db p.2 := by
  intro p hp
  rcases mem_mapSet hp with hp | rfl
  · exact hl p hp
  · exact he

theorem entries_mapAppend_ok {α : Type} [DecidableEq α] {db : Database}
    {l : List (α × List Entry)} {k : α} {e : Entry}
    (hl : ∀ p ∈ l, ∀ x ∈ p.2, EntryOk db x) (he : EntryOk db e) :
    ∀ p ∈ mapAppend k e l, ∀ x ∈ p.2, EntryOk db x := by
  intro p hp x hx
  obtain ⟨a, bs⟩ := p
  rcases mapAppend_val_mem hp x hx with ⟨p₀, hp₀, h₀⟩ | rfl
  · exact hl p₀ hp₀ x h₀
  · exact he

theorem chemStep_ok {db : Database} {acc : Caches} {row : ChemRow}
    (hok : CachesOk db acc) (hrow : row ∈ db.chemicals) :
    CachesOk db (chemStep acc row) := by
  have he : EntryOk db (⟨row.id, pyStrip row.name⟩ : Entry) :=
    List.mem_map.mpr ⟨row, hrow, rfl⟩
  simp only [chemStep]
  refine foldl_state_preserve (CachesOk db) _ _ _ ?_ ?_
  · refine foldl_state_preserve (CachesOk db) _ _ _ ?_ ?_
    · split
      · split
        · exact ⟨hok.cas, entries_mapSet_ok hok.name he, entries_mapSet_ok hok.norm he,
            hok.syn, hok.formula, hok.un, entries_mapSet_ok hok.fname he, hok.fsyn⟩
        · exact ⟨hok.cas, entries_mapSet_ok hok.name he, hok.norm,
            hok.syn, hok.formula, hok.un, entries_mapSet_ok hok.fname he, hok.fsyn⟩
      · exact hok
    · intro st a hst
      dsimp only
      split
      · exact hst
      · split
        · split
          · exact ⟨hst.cas, hst.name, entries_mapSet_ok hst.norm he,
              entries_mapAppend_ok hst.syn he, hst.formula, hst.un, hst.fname,
              entries_mapSet_ok hst.fsyn he⟩
          · exact ⟨hst.cas, hst.name, entries_mapSet_ok hst.norm he,
              entries_mapAppend_ok hst.syn he, hst.formula, hst.un, hst.fname, hst.fsyn⟩
        · split
          · exact ⟨hst.cas, hst.name, hst.norm,
              entries_mapAppend_ok hst.syn he, hst.formula, hst.un, hst.fname,
              entries_mapSet_ok hst.fsyn he⟩
          · exact ⟨hst.cas, hst.name, hst.norm,
              entries_mapAppend_ok hst.syn he, hst.formula, hst.un, hst.fname, hst.fsyn⟩
  · intro st a hst
    dsimp only
    split
    · exact hst
    · exact ⟨hst.cas, hst.name, hst.norm, hst.syn,
        entries_mapAppend_ok hst.formula he, hst.un, hst.fname, hst.fsyn⟩

theorem cachesOk_buildCaches (db : Database) : CachesOk db (buildCaches db) := by
  simp only [buildCaches]
  refine foldl_state_preserve_mem (CachesOk db) chemStep db.chemicals _ ?_ ?_
  · refine ⟨casMapOk db, ?_, ?_, ?_, ?_, unMapOk db, ?_, ?_⟩ <;>
      intro p hp <;> exact absurd hp (List.not_mem_nil p)
  · intro st a ha hst
    exact chemStep_ok hst ha

theorem ids_signals_from_cas {db : Database} {c : Caches} {cas src : Str} {sig : Signal}
    (hok : CachesOk db c) (h : sig ∈ _signals_from_cas c cas src) :
    sig.chemical_id ∈ db.chemicals.map (fun ch => ch.id) := by
  simp only [_signals_from_cas] at h
  split at h
  · exact absurd h (List.not_mem_nil sig)
  · rw [List.mem_map] at h
    obtain ⟨p, hp, rfl⟩ := h
    have h₁ : p.2 ∈ aget (stripSpaceDash cas) [] c.cas_map :=
      mem_sortByNameLen (List.mem_of_mem_take (snd_mem_of_mem_enumFrom hp))
    rcases halk : alookup (stripSpaceDash cas) c.cas_map with _ | hits
    · simp only [aget, halk, Option.getD_none] at h₁
      exact absurd h₁ (List.not_mem_nil _)
    · simp only [aget, halk, Option.getD_some] at h₁
      exact hok.cas _ (alookup_mem halk) p.2 h₁

theorem ids_exactNameSignals {db : Database} {c : Caches} {n : Str} {sig : Signal}
    (hok : CachesOk db c) (h : sig ∈ exactNameSignals c n) :
    sig.chemical_id ∈ db.chemicals.map (fun ch => ch.id) := by
  simp only [exactNameSignals] at h
  have base : ∀ s ∈ (match alookup (pyStrip (pyUpper n)) c.name_map with
      | some hit => [(⟨hit.id, hit.name, str "name_exact", 1, weightOf "name_exact",
          str "Exact name match: \x27" ++ n ++ str "\x27"⟩ : Signal)]
      | none => []) ++ (aget (pyStrip (pyUpper n)) [] c.synonym_map).map (fun sh =>
        (⟨sh.id, sh.name, str "name_synonym", 1, weightOf "name_synonym",
          str "Exact synonym match: \x27" ++ n ++ str "\x27 → " ++ sh.name⟩ : Signal)),
      s.chemical_id ∈ db.chemicals.map (fun ch => ch.id) := by
    intro s hs
    rw [List.mem_append] at hs
    rcases hs with hs | hs
    · rcases halk : alookup (pyStrip (pyUpper n)) c.name_map with _ | hit
      · simp only [halk] at hs
        exact absurd hs (List.not_mem_nil s)
      · simp only [halk] at hs
        rw [List.mem_singleton] at hs
        subst hs
        exact hok.name _ (alookup_mem halk)
    · rw [List.mem_map] at hs
      obtain ⟨sh, hsh, rfl⟩ := hs
      rcases halk : alookup (pyStrip (pyUpper n)) c.synonym_map with _ | shs
      · simp only [aget, halk, Option.getD_none] at hsh
        exact absurd hsh (List.not_mem_nil sh)
      · simp only [aget, halk, Option.getD_some] at hsh
        exact hok.syn _ (alookup_mem halk) sh hsh
  split at h
  · split at h
    · rename_i hit heq
      split at h
      · rw [List.mem_append] at h
        rcases h with h | h
        · exact base sig h
        · rw [List.mem_singleton] at h
          subst h
          exact hok.norm _ (alookup_mem heq)
      · exact base sig h
    · exact base sig h
  · exact base sig h

theorem fuzzyNameStep_ids {db : Database} {c : Caches} {n : Str}
    (hok : CachesOk db c) (st : List Signal × List Nat) (m : Str × ℚ)
    (h : ∀ s ∈ st.1, s.chemical_id ∈ db.chemicals.map (fun ch => ch.id)) :
    ∀ s ∈ (fuzzyNameStep c n st m).1,
      s.chemical_id ∈ db.chemicals.map (fun ch => ch.id) := by
  intro s hs
  simp only [fuzzyNameStep] at hs
  split at hs
  · rename_i entry heq
    split at hs
    · rw [List.mem_append] at hs
      rcases hs with hs | hs
      · exact h s hs
      · rw [List.mem_singleton] at hs
        subst hs
        exact hok.fname _ (alookup_mem heq)
    · exact h s hs
  · exact h s hs

theorem fuzzySynStep_ids {db : Database} {c : Caches} {n : Str}
    (hok : CachesOk db c) (st : List Signal × List Nat) (m : Str × ℚ)
    (h : ∀ s ∈ st.1, s.chemical_id ∈ db.chemicals.map (fun ch => ch.id)) :
    ∀ s ∈ (fuzzySynStep c n st m).1,
      s.chemical_id ∈ db.chemicals.map (fun ch => ch.id) := by
  intro s hs
  simp only [fuzzySynStep] at hs
  split at hs
  · rename_i entry heq
    split at hs
    · rw [List.mem_append] at hs
      rcases hs with hs | hs
      · exact h s hs
      · rw [List.mem_singleton] at hs
        subst hs
        exact hok.fsyn _ (alookup_mem heq)
    · exact h s hs
  · exact h s hs

theorem ids_signals_from_name {db : Database} {c : Caches} {ex : Extractor} {n : Str}
    {sig : Signal} (hok : CachesOk db c) (h : sig ∈ _signals_from_name c ex n) :
    sig.chemical_id ∈ db.chemicals.map (fun ch => ch.id) := by
  simp only [_signals_from_name] at h
  refine (foldl_state_preserve
    (fun st => ∀ s ∈ st.1, s.chemical_id ∈ db.chemicals.map (fun ch => ch.id))
    (fuzzySynStep c n) _ _ ?_ (fun st a hst => fuzzySynStep_ids hok st a hst)) sig h
  refine foldl_state_preserve _ (fuzzyNameStep c n) _ _ ?_
    (fun st a hst => fuzzyNameStep_ids hok st a hst)
  intro s hs
  exact ids_exactNameSignals hok hs

theorem ids_signals_from_formula {db : Database} {c : Caches} {f : Str} {sig : Signal}
    (hok : CachesOk db c) (h : sig ∈ _signals_from_formula c f) :
    sig.chemical_id ∈ db.chemicals.map (fun ch => ch.id) := by
  simp only [_signals_from_formula] at h
  rw [List.mem_map] at h
  obtain ⟨hit, hhit, rfl⟩ := h
  have h₁ := List.mem_of_mem_take hhit
  rcases halk : alookup (_normalize_formula f) c.formula_map with _ | hits
  · simp only [aget, halk, Option.getD_none] at h₁
    exact absurd h₁ (List.not_mem_nil _)
  · simp only [aget, halk, Option.getD_some] at h₁
    exact hok.formula _ (alookup_mem halk) hit h₁

theorem ids_signals_from_un {db : Database} {c : Caches} {u : Str} {sig : Signal}
    (hok : CachesOk db c) (h : sig ∈ _signals_from_un c u) :
    sig.chemical_id ∈ db.chemicals.map (fun ch => ch.id) := by
  simp only [_signals_from_un] at h
  split at h
  · exact absurd h (List.not_mem_nil sig)
  · rename_i un_int heq
    split at h
    · exact absurd h (List.not_mem_nil sig)
    · rw [List.mem_map] at h
      obtain ⟨p, hp, rfl⟩ := h
      have h₁ : p.2 ∈ aget un_int [] c.un_map :=
        mem_sortByNameLen (List.mem_of_mem_take (snd_mem_of_mem_enumFrom hp))
      rcases halk : alookup un_int c.un_map with _ | hits
      · simp only [aget, halk, Option.getD_none] at h₁
        exact absurd h₁ (List.not_mem_nil _)
      · simp only [aget, halk, Option.getD_some] at h₁
        exact hok.un _ (alookup_mem halk) p.2 h₁

theorem genSignals_ids {db : Database} {c : Caches} {ex : Extractor} {cleaned : Cleaned}
    (hok : CachesOk db c) :
    ∀ sig ∈ genSignals c ex cleaned,
      sig.chemical_id ∈ db.chemicals.map (fun ch => ch.id) := by
  intro sig h
  rcases mem_genSignals_cases h with ((((h | h) | h) | ⟨n, _, h⟩) | h) | h
  · exact ids_signals_from_cas hok (mem_of_ite_nil h)
  · exact ids_signals_from_cas hok (mem_of_ite_nil h)
  · rcases hcin : cas_in_nameOf cleaned with _ | cin
    · rw [hcin] at h
      exact absurd h (List.not_mem_nil sig)
    · rw [hcin] at h
      exact ids_signals_from_cas hok h
  · exact ids_signals_from_name hok h
  · exact ids_signals_from_formula hok (mem_of_ite_nil h)
  · rcases hun : cleaned.un_number with _ | u
    · rw [hun] at h
      exact absurd h (List.not_mem_nil sig)
    · rw [hun] at h
      exact ids_signals_from_un hok (mem_of_ite_nil h)

theorem keys_candidateBestPerType : ∀ (sigs : List Signal)
    (m : List (Nat × List (Str × Signal))),
    ∀ cid ∈ (sigs.foldl aggStep m).map (fun p => p.1),
      cid ∈ m.map (fun p => p.1) ∨ ∃ s ∈ sigs, s.chemical_id = cid := by
  intro sigs
  induction sigs with
  | nil => intro m cid h; exact Or.inl h
  | cons x t ih =>
    intro m cid h
    rcases ih (aggStep m x) cid h with h₁ | ⟨s, hs, hcid⟩
    · rw [keys_aggStep] at h₁
      split at h₁
      · exact Or.inl h₁
      · rw [List.mem_append, List.mem_singleton] at h₁
        rcases h₁ with h₁ | rfl
        · exact Or.inl h₁
        · exact Or.inr ⟨x, List.mem_cons_self _ _, rfl⟩
    · exact Or.inr ⟨s, List.mem_cons_of_mem _ hs, hcid⟩

theorem mem_candidateScores_ids {signals : List Signal} {p : Nat × ℚ}
    (hp : p ∈ candidateScores signals) : ∃ s ∈ signals, s.chemical_id = p.1 := by
  simp only [candidateScores] at hp
  rw [List.mem_map] at hp
  obtain ⟨q, hq, rfl⟩ := hp
  have h₁ : q.1 ∈ (candidateBestPerType signals).map (fun r => r.1) :=
    List.mem_map.mpr ⟨q, hq, rfl⟩
  rcases keys_candidateBestPerType signals [] q.1 h₁ with h | h
  · exact absurd h (List.not_mem_nil _)
  · exact h

theorem fuse_id_mem (c : Caches) (ex : Extractor) (fi : FuseIn)
    (signals : List Signal) (fs : List Str) :
    (fuse c ex fi signals fs).chemical_id = none ∨
    ∃ p ∈ sortDescByScore (candidateScores signals),
      (fuse c ex fi signals fs).chemical_id = some p.1 := by
  rcases hrk : sortDescByScore (candidateScores signals) with _ | ⟨best, tail⟩
  · left
    simp only [fuse, hrk]
    rfl
  · right
    refine ⟨best, hrk ▸ List.mem_cons_self best tail, ?_⟩
    simp only [fuse, hrk]
    rfl

theorem matchRow_id_cases (c : Caches) (ex : Extractor) (cleaned : Cleaned) :
    (matchRow c ex cleaned).chemical_id = none ∨
    ∃ k, (matchRow c ex cleaned).chemical_id = some k ∧
      ∃ s ∈ genSignals c ex cleaned, s.chemical_id = k := by
  simp only [matchRow]
  by_cases hs : (genSignals c ex cleaned).isEmpty = true
  · rw [if_pos hs]
    exact Or.inl rfl
  · rw [if_neg hs]
    rcases fuse_id_mem c ex (fuseInOf cleaned) (genSignals c ex cleaned)
        (fieldSwapsOf cleaned) with h | ⟨p, hp, h⟩
    · exact Or.inl h
    · right
      obtain ⟨s, hsg, hsk⟩ := mem_candidateScores_ids (mem_sortDescByScore hp)
      exact ⟨p.1, h, s, hsg, hsk⟩

/-- Claim C1: the anti-hallucination invariant.  For every reference store,
scorer and cleaned row, the result of matching against a freshly constructed
engine (whose caches are built from the store by the cache loader) carries
either no chemical id or the id of a chemical record loaded into the
reference index — the engine never returns an invented id. -/
theorem anti_hallucination (db : Database) (ex : Extractor) (cleaned : Cleaned) :
    (HybridMatcher.matchState (HybridMatcher.init db) ex cleaned).1.chemical_id = none ∨
    ∃ k, (HybridMatcher.matchState (HybridMatcher.init db) ex cleaned).1.chemical_id =
        some k ∧ k ∈ db.chemicals.map (fun ch => ch.id) := by
  have hms : (HybridMatcher.matchState (HybridMatcher.init db) ex cleaned).1 =
      matchRow (buildCaches db) ex cleaned := rfl
  rw [hms]
  rcases matchRow_id_cases (buildCaches db) ex cleaned with h | ⟨k, hk, s, hs, hsk⟩
  · exact Or.inl h
  · right
    refine ⟨k, hk, ?_⟩
    rw [← hsk]
    exact genSignals_ids (cachesOk_buildCaches db) s hs

end Cameo
